import Mathlib

/-!
# Verification of the PyComb combinatorial library

A shallow embedding of `src/PyComb.py` (arbitrary-precision integer
combinatorics: gcd, range product, binomial, multinomial and derived
sequences), together with theorems settling the specification claims.

Python `//` (floor division) is embedded as `Int.fdiv` and Python `%`
(floor remainder) as `Int.fmod`; both agree with Python on all integer
arguments.  A Python function that can raise an exception is embedded as a
function into `PyResult`, whose `exc` constructor records which exception
is raised.  The `while` loop of `gcd` is embedded with an explicit fuel
parameter; the fuel supplied by `pygcd` is proved sufficient, so the
embedding computes exactly the value of the Python loop (which terminates
because the absolute value of the remainder strictly decreases).
-/

namespace PyComb


/-- Exceptions the Python code can raise: `ZeroDivisionError` (in `gcd`,
from `a % 0`), `IndexError` (in `multinomial`, from `n[0]` on an empty
list) and `ValueError` (from `math.factorial` on a negative argument). -/
inductive PyExc : Type
  | zeroDiv
  | indexError
  | valueError
deriving DecidableEq

/-- Result of running a Python function: a returned value or a raised
exception. -/
inductive PyResult (α : Type) : Type
  | ok (a : α)
  | exc (e : PyExc)
deriving DecidableEq

/-- Module-level constant `RP = 16  # reduction period`. -/
def RP : Int := 16

/-- The list of integers produced by Python `range(lo, hi + 1)`, that is
`[lo, lo+1, ..., hi]` (empty when `hi < lo`). -/
def intRange (lo hi : Int) : List Int :=
  (List.range (hi + 1 - lo).toNat).map (fun (j : Nat) => lo + (j : Int))

/-! ## `gcd` (section 4.1 of the spec)

```python
def gcd(a, b):
    r = a % b
    while r != 0:
        a = b
        b = r
        r = a % b
    return b
```
-/
/-- The `while` loop of `gcd`, with fuel.  State: current divisor `b` and
current remainder `r`; one step replaces them by `r` and `b % r`. -/
def pygcdAux : Nat → Int → Int → Int
  | 0, b, _ => b
  | fuel + 1, b, r => if r = 0 then b else pygcdAux fuel r (Int.fmod b r)

/-- Python `gcd(a, b)`.  `a % b` raises `ZeroDivisionError` when `b == 0`;
otherwise the loop runs with initial remainder `a % b`, whose absolute
value bounds the number of iterations (so the supplied fuel suffices). -/
def pygcd (a b : Int) : PyResult Int :=
  if b = 0 then .exc .zeroDiv
  else .ok (pygcdAux ((Int.fmod a b).natAbs + 1) b (Int.fmod a b))

/-! ## `prod` (section 4.2)

```python
def prod(m, n):
    if n < m:
        return 0
    elif n == m:
        return n
    result = 1
    for i in range(m, n + 1):
        result *= i
    return result
```
-/
/-- Python `prod(m, n)`: the product of the integers in `[m, n]`, with the
two early returns of the source. -/
def prod (m n : Int) : Int :=
  if n < m then 0
  else if n = m then n
  else (intRange m n).prod

/-! ## Rising products of consecutive integers

`ascProd a m` is `(a+1) * (a+2) * ... * (a+m)` over `Nat`, and `ascProdI`
is the same over `Int`; these describe the accumulators of the `binomial`
and `multinomial` loops. -/
def ascProd (a : Nat) (m : Nat) : Nat :=
  ((List.range m).map (fun j => a + 1 + j)).prod

def ascProdI (a : Int) (m : Nat) : Int :=
  ((List.range m).map (fun (j : Nat) => a + 1 + (j : Int))).prod

/-! ## `binomial` (section 4.3)

```python
def binomial(n, k):
    if (n < k) or (n < 0) or (k < 0):
        return 0
    elif n == k:
        return 1
    elif k == 1:
        return n
    elif k == 0:
        return 1
    elif n - k < k:
        k = n - k
    num = n - k + 1
    den = 1
    for i in range(2, k + 1):
        num *= n - (k - i)
        den *= i
        if i % RP == 0:
            g = gcd(num, den)
            num = num // g
            den = den // g
    return num // den
```
-/
/-- One iteration of the `binomial` loop at index `i`: multiply the two
accumulators, then reduce both by their gcd when `i % rp == 0`. -/
def binStep (rp n k : Int) (p : Int × Int) (i : Int) : PyResult (Int × Int) :=
  let num := p.1 * (n - (k - i))
  let den := p.2 * i
  if Int.fmod i rp = 0 then
    match pygcd num den with
    | .exc e => .exc e
    | .ok g => .ok (Int.fdiv num g, Int.fdiv den g)
  else .ok (num, den)

/-- The `binomial` `for` loop over the index list `[2, ..., k]`. -/
def binLoop (rp n k : Int) : List Int → Int × Int → PyResult (Int × Int)
  | [], p => .ok p
  | i :: is, p =>
    match binStep rp n k p i with
    | .exc e => .exc e
    | .ok q => binLoop rp n k is q

/-- The tail of `binomial` after the guards: run the loop on the (possibly
symmetry-reduced) second argument `k` and divide the accumulators. -/
def binMain (rp n k : Int) : PyResult Int :=
  match binLoop rp n k (intRange 2 k) (n - k + 1, 1) with
  | .exc e => .exc e
  | .ok p => .ok (Int.fdiv p.1 p.2)

/-- Python `binomial(n, k)` with reduction period `rp`; the source's guard
chain, the symmetry substitution `k ← n - k`, then the loop. -/
def binomialR (rp n k : Int) : PyResult Int :=
  if n < k ∨ n < 0 ∨ k < 0 then .ok 0
  else if n = k then .ok 1
  else if k = 1 then .ok n
  else if k = 0 then .ok 1
  else if n - k < k then binMain rp n (n - k)
  else binMain rp n k

/-- Python `binomial(n, k)` at the module constant `RP = 16`. -/
def binomial (n k : Int) : PyResult Int := binomialR RP n k

/-! ## `multinomial` (section 4.4)

```python
def multinomial(nlist):
    n = nlist.copy()
    if len(n) == 0:
        return 0
    for i in range(0, len(n)):
        if n[i] < 0:
            return 0
    nsum = sum(n)
    if nsum == 0:
        return 0
    nmax = max(n)
    n.remove(nmax)
    num = 1
    den = 1
    m = n[0]
    n.remove(n[0])
    for i in range(nmax + 1, nsum + 1):
        num *= i
        if m > 1:
            den *= m
            m -= 1
        else:
            if len(n) > 0:
                m = n[0]
                n.remove(n[0])
        if i % RP == 0:
            g = gcd(num, den)
            num = num // g
            den = den // g
    return num // den
```

`list.remove(x)` removes the first occurrence of the value `x`
(`List.erase`); `n.remove(n[0])` therefore removes the head.  `max(n)` of a
nonempty list is its maximum value.
-/
/-- Python `max` on a nonempty list (the `[]` case is unreachable at the
call site, which is guarded by the emptiness check). -/
def listMax : List Int → Int
  | [] => 0
  | x :: xs => xs.foldl max x

/-- The `den`/`m`/working-list update of one `multinomial` iteration:
either drain the current counter `m` into `den`, or fetch the next part
from the working list. -/
def multUpd (den m : Int) (rest : List Int) : Int × Int × List Int :=
  if 1 < m then (den * m, m - 1, rest)
  else
    match rest with
    | [] => (den, m, rest)
    | r :: _ => (den, r, rest.erase r)

/-- The `multinomial` `for` loop over `range(nmax + 1, nsum + 1)`.  State:
numerator, denominator, depletion counter `m`, and the working list. -/
def multLoop (rp : Int) : List Int → Int → Int → Int → List Int → PyResult (Int × Int)
  | [], num, den, _, _ => .ok (num, den)
  | i :: is, num, den, m, rest =>
    match multUpd den m rest with
    | (den1, m1, rest1) =>
      if Int.fmod i rp = 0 then
        match pygcd (num * i) den1 with
        | .exc e => .exc e
        | .ok g => multLoop rp is (Int.fdiv (num * i) g) (Int.fdiv den1 g) m1 rest1
      else multLoop rp is (num * i) den1 m1 rest1

/-- Python `multinomial(nlist)` with reduction period `rp`.  `m = n[0]` on
an empty working list raises `IndexError`. -/
def multinomialR (rp : Int) (nlist : List Int) : PyResult Int :=
  if nlist.length = 0 then .ok 0
  else if nlist.any (fun x => x < 0) then .ok 0
  else if nlist.sum = 0 then .ok 0
  else
    match nlist.erase (listMax nlist) with
    | [] => .exc .indexError
    | m0 :: rest0 =>
      match multLoop rp (intRange (listMax nlist + 1) nlist.sum) 1 1 m0
          ((m0 :: rest0).erase m0) with
      | .exc e => .exc e
      | .ok (num, den) => .ok (Int.fdiv num den)

/-- Python `multinomial(nlist)` at the module constant `RP = 16`. -/
def multinomial : List Int → PyResult Int := multinomialR RP

/-- The reduction-free skeleton of the `multinomial` loop: the raw
numerator and denominator products, independent of the reduction
period. -/
def rawLoop : List Int → Int → List Int → Int × Int
  | [], _, _ => (1, 1)
  | i :: is, m, rest =>
    match multUpd 1 m rest with
    | (f, m1, rest1) =>
      match rawLoop is m1 rest1 with
      | (N, D) => (i * N, f * D)

/-! ## Derived sequences (sections 4.5 - 4.14)

Each function transcribes its Python source; `for` loops with an
accumulator become recursive functions over the index list, and loops that
flip a `sign` variable thread it through the recursion.  The loops take
the binomial (or stirling2) function as an argument, so each derived
function applies them to `binomialR rp` / `stirling2R rp`. -/
/-- Python `math.factorial` (raises `ValueError` on a negative argument). -/
def pyfactorial (m : Int) : PyResult Int :=
  if m < 0 then .exc .valueError else .ok ((m.toNat.factorial : Nat) : Int)

/-- Python `catalan(n) = binomial(2*n, n) // (n + 1)` for `n ≥ 0`, else 0. -/
def catalanR (rp n : Int) : PyResult Int :=
  if n < 0 then .ok 0
  else
    match binomialR rp (2 * n) n with
    | .exc e => .exc e
    | .ok b => .ok (Int.fdiv b (n + 1))

/-- The `stirling2` summation loop; `e` is the exponent `n` (nonnegative at
the guarded call site), and the sign of each term is decided by the parity
of `m - i`. -/
def s2Loop (bin : Int → Int → PyResult Int) (m : Int) (e : Nat) :
    List Int → Int → PyResult Int
  | [], acc => .ok acc
  | i :: is, acc =>
    match bin m i with
    | .exc ex => .exc ex
    | .ok b =>
      s2Loop bin m e is (acc + (if Int.fmod (m - i) 2 = 0 then 1 else -1) * b * i ^ e)

/-- Python `stirling2(n, m)`. -/
def stirling2R (rp n m : Int) : PyResult Int :=
  if n < m ∨ n < 0 ∨ m < 0 then .ok 0
  else
    match s2Loop (binomialR rp) m n.toNat (intRange 0 m) 0 with
    | .exc e => .exc e
    | .ok s =>
      match pyfactorial m with
      | .exc e => .exc e
      | .ok fm => .ok (Int.fdiv s fm)

/-- The `stirling1` summation loop (alternating sign threaded through). -/
def s1Loop (bin st2 : Int → Int → PyResult Int) (n m : Int) :
    List Int → Int → Int → PyResult Int
  | [], acc, _ => .ok acc
  | kk :: ks, acc, sign =>
    match bin (n - 1 + kk) (n - m + kk) with
    | .exc e => .exc e
    | .ok b1 =>
      match bin (2 * n - m) (n - m - kk) with
      | .exc e => .exc e
      | .ok b2 =>
        match st2 (n - m + kk) kk with
        | .exc e => .exc e
        | .ok s2 => s1Loop bin st2 n m ks (acc + sign * (b1 * b2 * s2)) (-sign)

/-- Python `stirling1(n, m)`. -/
def stirling1R (rp n m : Int) : PyResult Int :=
  if n < m ∨ n < 0 ∨ m < 0 then .ok 0
  else s1Loop (binomialR rp) (stirling2R rp) n m (intRange 0 (n - m)) 0 1

/-- The `bell` summation loop. -/
def bellLoop (st2 : Int → Int → PyResult Int) (n : Int) :
    List Int → Int → PyResult Int
  | [], acc => .ok acc
  | kk :: ks, acc =>
    match st2 n kk with
    | .exc e => .exc e
    | .ok s => bellLoop st2 n ks (acc + s)

/-- Python `bell(n)`. -/
def bellR (rp n : Int) : PyResult Int :=
  if n < 0 then .ok 0
  else bellLoop (stirling2R rp) n (intRange 0 n) 0

/-- Python `lah(n, k)`: guard, then the inline product over
`range(k+1, n+1)` (an empty product is `1`), times `binomial(n-1, k-1)`. -/
def lahR (rp n k : Int) : PyResult Int :=
  if n < k ∨ n < 1 ∨ k < 1 then .ok 0
  else
    match binomialR rp (n - 1) (k - 1) with
    | .exc e => .exc e
    | .ok b => .ok ((intRange (k + 1) n).prod * b)

/-- The `delannoy` summation loop. -/
def delLoop (bin : Int → Int → PyResult Int) (m n : Int) :
    List Int → Int → PyResult Int
  | [], acc => .ok acc
  | kk :: ks, acc =>
    match bin m kk with
    | .exc e => .exc e
    | .ok b1 =>
      match bin n kk with
      | .exc e => .exc e
      | .ok b2 => delLoop bin m n ks (acc + 2 ^ kk.toNat * b1 * b2)

/-- Python `delannoy(m, n)`. -/
def delannoyR (rp m n : Int) : PyResult Int :=
  if n < 0 ∨ m < 0 then .ok 0
  else delLoop (binomialR rp) m n (intRange 0 n) 0

/-- The `motzkin` summation loop (per-term integer division, alternating
sign threaded through). -/
def motzLoop (bin : Int → Int → PyResult Int) (n : Int) :
    List Int → Int → Int → PyResult Int
  | [], acc, _ => .ok acc
  | kk :: ks, acc, sign =>
    match bin n kk with
    | .exc e => .exc e
    | .ok b1 =>
      match bin (2 * n + 2 - 2 * kk) (n + 1 - kk) with
      | .exc e => .exc e
      | .ok b2 => motzLoop bin n ks (acc + sign * (Int.fdiv (b1 * b2) (n + 2 - kk))) (-sign)

/-- Python `motzkin(n)`. -/
def motzkinR (rp n : Int) : PyResult Int :=
  if n < 0 then .ok 0
  else motzLoop (binomialR rp) n (intRange 0 n) 0 1

/-- Python `narayana(n, k)`. -/
def narayanaR (rp n k : Int) : PyResult Int :=
  if n < 0 ∨ k < 0 ∨ n < k then .ok 0
  else if n = 0 then .ok 1
  else if k = 0 ∧ k < n then .ok 0
  else if n = k ∨ k = 1 then .ok 1
  else
    match binomialR rp n k with
    | .exc e => .exc e
    | .ok b1 =>
      match binomialR rp n (k - 1) with
      | .exc e => .exc e
      | .ok b2 => .ok (Int.fdiv (b1 * b2) n)

/-- Python `schroder(n) = delannoy(n, n) - delannoy(n+1, n-1)` for
`n ≥ 0`, else 0. -/
def schroderR (rp n : Int) : PyResult Int :=
  if n < 0 then .ok 0
  else
    match delannoyR rp n n with
    | .exc e => .exc e
    | .ok a =>
      match delannoyR rp (n + 1) (n - 1) with
      | .exc e => .exc e
      | .ok b => .ok (a - b)

/-- The `eulerian` summation loop. -/
def eulLoop (bin : Int → Int → PyResult Int) (n k : Int) :
    List Int → Int → Int → PyResult Int
  | [], acc, _ => .ok acc
  | j :: js, acc, sign =>
    match bin (n + 1) j with
    | .exc e => .exc e
    | .ok b => eulLoop bin n k js (acc + sign * b * (k + 1 - j) ^ n.toNat) (-sign)

/-- Python `eulerian(n, k)`. -/
def eulerianR (rp n k : Int) : PyResult Int :=
  if n < 0 ∨ k < 0 then .ok 0
  else if n = 0 ∧ k = 0 then .ok 1
  else if n ≤ k then .ok 0
  else eulLoop (binomialR rp) n k (intRange 0 k) 0 1

def catalan : Int → PyResult Int := catalanR RP

def stirling2 : Int → Int → PyResult Int := stirling2R RP

def stirling1 : Int → Int → PyResult Int := stirling1R RP

def bell : Int → PyResult Int := bellR RP

def lah : Int → Int → PyResult Int := lahR RP

def delannoy : Int → Int → PyResult Int := delannoyR RP

def motzkin : Int → PyResult Int := motzkinR RP

def narayana : Int → Int → PyResult Int := narayanaR RP

def schroder : Int → PyResult Int := schroderR RP

def eulerian : Int → Int → PyResult Int := eulerianR RP

/-! ## Heap model of `multinomial` (claim C9)

To state that `multinomial` never mutates the caller's list, Python lists
are modelled as heap cells: a heap maps addresses to list values, and an
allocation counter `next` bounds the live addresses.  `n = nlist.copy()`
allocates a fresh cell; every destructive `remove` writes only to that
fresh cell.  The integers `num`, `den`, `m` are immutable Python values
and stay plain. -/
structure HState where
  heap : Nat → List Int
  next : Nat

def hread (σ : HState) (a : Nat) : List Int := σ.heap a

def hwrite (σ : HState) (a : Nat) (l : List Int) : HState :=
  ⟨fun c => if c = a then l else σ.heap c, σ.next⟩

/-- Allocate a fresh cell holding `l`; returns the new state and the fresh
address. -/
def halloc (σ : HState) (l : List Int) : HState × Nat :=
  (⟨fun c => if c = σ.next then l else σ.heap c, σ.next + 1⟩, σ.next)

/-- The `multinomial` loop in the heap model: the working list lives in
cell `b`; the final `num // den` is performed when the index list is
exhausted. -/
def multLoopH (rp : Int) : List Int → Int → Int → Int → Nat → HState → PyResult Int × HState
  | [], num, den, _, _, σ => (.ok (Int.fdiv num den), σ)
  | i :: is, num, den, m, b, σ =>
    match (if 1 < m then (den * m, m - 1, σ)
           else match hread σ b with
                | [] => (den, m, σ)
                | r :: _ => (den, r, hwrite σ b ((hread σ b).erase r))) with
    | (den1, m1, σ1) =>
      if Int.fmod i rp = 0 then
        match pygcd (num * i) den1 with
        | .exc e => (.exc e, σ1)
        | .ok g => multLoopH rp is (Int.fdiv (num * i) g) (Int.fdiv den1 g) m1 b σ1
      else multLoopH rp is (num * i) den1 m1 b σ1

/-- Heap-model `multinomial`: the caller's list lives at address
`a`; the first step copies it into a fresh cell `b`, and all subsequent
list operations read and write `b` only. -/
def multinomialH (rp : Int) (σ : HState) (a : Nat) : PyResult Int × HState :=
  let σ1 := (halloc σ (hread σ a)).1
  let b := (halloc σ (hread σ a)).2
  if (hread σ1 b).length = 0 then (.ok 0, σ1)
  else if (hread σ1 b).any (fun x => x < 0) then (.ok 0, σ1)
  else if (hread σ1 b).sum = 0 then (.ok 0, σ1)
  else
    let nsum := (hread σ1 b).sum
    let nmax := listMax (hread σ1 b)
    let σ2 := hwrite σ1 b ((hread σ1 b).erase nmax)
    match hread σ2 b with
    | [] => (.exc .indexError, σ2)
    | m0 :: _ =>
      let σ3 := hwrite σ2 b ((hread σ2 b).erase m0)
      multLoopH rp (intRange (nmax + 1) nsum) 1 1 m0 b σ3

/-! ## The `stirling2` alternating sum (claim C7)

`surT n m` is the normalized alternating sum
`Σ_{i=0}^{m} (-1)^i C(m,i) i^n`; the code's sum (signs by parity of
`m - i`) is `(-1)^m * surT n m`.  The classical recurrence
`surT (n+1) (m+1) = -(m+1) * (surT n m - surT n (m+1))` yields
vanishing above the diagonal, the value `(-1)^n n!` on the diagonal, and
divisibility by `m!` — which is exactly what `stirling2` needs. -/
def surT (n m : Nat) : Int :=
  ∑ i in Finset.range (m + 1), (-1 : Int)^i * ((m.choose i : Nat) : Int) * ((i : Nat) : Int)^n

def surB (n m : Nat) : Int :=
  ∑ j in Finset.range (m + 1), (-1 : Int)^j * ((m.choose j : Nat) : Int) * (((j : Nat) : Int) + 1)^n


theorem mem_range_map {lo : Int} {n : Nat} {i : Int} :
    i ∈ (List.range n).map (fun (j : Nat) => lo + (j : Int)) ↔ lo ≤ i ∧ i < lo + n := by
  induction n with
  | zero => simp
  | succ m ih =>
    rw [List.range_succ, List.map_append, List.mem_append, ih]
    simp only [List.map_cons, List.map_nil, List.mem_singleton]
    omega

theorem mem_intRange {lo hi i : Int} : i ∈ intRange lo hi ↔ lo ≤ i ∧ i ≤ hi := by
  unfold intRange
  rw [mem_range_map]
  omega

/-! ## Floor division and floor remainder facts -/
theorem fdiv_neg_neg (a b : Int) : Int.fdiv (-a) (-b) = Int.fdiv a b := by
  rcases b with (_ | n) | n
  · show Int.fdiv (-a) (-0) = Int.fdiv a 0
    simp
  · rcases a with (_ | m) | m <;> rfl
  · rcases a with (_ | m) | m <;> rfl

theorem fmod_neg_neg (a b : Int) : Int.fmod (-a) (-b) = -(Int.fmod a b) := by
  rw [Int.fmod_def, Int.fmod_def, fdiv_neg_neg]
  ring

theorem fmod_eq_neg_fmod_neg (a b : Int) : Int.fmod a b = -(Int.fmod (-a) (-b)) := by
  have h := fmod_neg_neg (-a) (-b)
  rw [neg_neg, neg_neg] at h
  omega

theorem fmod_nonpos_of_neg (a : Int) {b : Int} (hb : b < 0) : Int.fmod a b ≤ 0 := by
  have e := fmod_eq_neg_fmod_neg a b
  have h := Int.fmod_nonneg' (-a) (b := -b) (by omega)
  omega

theorem fmod_gt_of_neg (a : Int) {b : Int} (hb : b < 0) : b < Int.fmod a b := by
  have e := fmod_eq_neg_fmod_neg a b
  have h := Int.fmod_lt_of_pos (-a) (b := -b) (by omega)
  omega

theorem fmod_natAbs_lt {b r : Int} (hr : r ≠ 0) : (Int.fmod b r).natAbs < r.natAbs := by
  rcases lt_or_gt_of_ne hr with h | h
  · have h1 := fmod_nonpos_of_neg b h
    have h2 := fmod_gt_of_neg b h
    omega
  · have h1 := Int.fmod_nonneg' b h
    have h2 := Int.fmod_lt_of_pos b h
    omega

/-- The Euclidean step preserves the gcd: `gcd r (b mod r) = gcd b r`. -/
theorem gcd_fmod_step (b r : Int) : Int.gcd r (Int.fmod b r) = Int.gcd b r := by
  apply Nat.dvd_antisymm
  · have h1 : (Int.gcd r (Int.fmod b r) : Int) ∣ r := Int.gcd_dvd_left
    have h2 : (Int.gcd r (Int.fmod b r) : Int) ∣ Int.fmod b r := Int.gcd_dvd_right
    have hb : (Int.gcd r (Int.fmod b r) : Int) ∣ b := by
      have hd := dvd_add h2 (Dvd.dvd.mul_right h1 (Int.fdiv b r))
      rwa [Int.fmod_add_fdiv] at hd
    exact Int.natCast_dvd_natCast.mp (Int.dvd_gcd hb h1)
  · have h1 : (Int.gcd b r : Int) ∣ b := Int.gcd_dvd_left
    have h2 : (Int.gcd b r : Int) ∣ r := Int.gcd_dvd_right
    have hm : (Int.gcd b r : Int) ∣ Int.fmod b r := by
      rw [Int.fmod_def]
      exact dvd_sub h1 (Dvd.dvd.mul_right h2 _)
    exact Int.natCast_dvd_natCast.mp (Int.dvd_gcd h2 hm)

theorem pygcdAux_gcd : ∀ (fuel : Nat) (b r : Int), r.natAbs < fuel →
    (pygcdAux fuel b r).natAbs = Int.gcd b r := by
  intro fuel
  induction fuel with
  | zero => intro b r h; exact absurd h (Nat.not_lt_zero _)
  | succ f ih =>
    intro b r h
    by_cases hr : r = 0
    · subst hr
      simp [pygcdAux, Int.gcd_zero_right]
    · have hlt := fmod_natAbs_lt (b := b) hr
      rw [pygcdAux, if_neg hr, ih r (Int.fmod b r) (by omega), gcd_fmod_step]

theorem pygcdAux_pos : ∀ (fuel : Nat) (b r : Int), r.natAbs < fuel → 0 < b → 0 ≤ r →
    0 < pygcdAux fuel b r := by
  intro fuel
  induction fuel with
  | zero => intro b r h; exact absurd h (Nat.not_lt_zero _)
  | succ f ih =>
    intro b r h hb hr
    by_cases h0 : r = 0
    · subst h0; simpa [pygcdAux] using hb
    · have hlt := fmod_natAbs_lt (b := b) h0
      rw [pygcdAux, if_neg h0]
      exact ih r (Int.fmod b r) (by omega) (by omega)
        (Int.fmod_nonneg' b (by omega))

theorem pygcdAux_neg : ∀ (fuel : Nat) (b r : Int),
    pygcdAux fuel (-b) (-r) = -(pygcdAux fuel b r) := by
  intro fuel
  induction fuel with
  | zero => intro b r; rfl
  | succ f ih =>
    intro b r
    by_cases hr : r = 0
    · subst hr; simp [pygcdAux]
    · rw [pygcdAux, pygcdAux, if_neg (by omega : ¬(-r = 0)), if_neg hr,
        fmod_neg_neg, ih]

theorem pygcd_zero (a : Int) : pygcd a 0 = .exc .zeroDiv := by
  simp [pygcd]

/-- With sufficient fuel, a positive divisor and a nonnegative remainder, the
loop returns the (positive) gcd. -/
theorem pygcdAux_pos_result {F : Nat} {b r : Int} (hfuel : r.natAbs < F)
    (hb : 0 < b) (hr : 0 ≤ r) : pygcdAux F b r = Int.gcd b r := by
  rw [← Int.natAbs_of_nonneg (le_of_lt (pygcdAux_pos F b r hfuel hb hr)),
    pygcdAux_gcd F b r hfuel]

/-- With sufficient fuel, a negative divisor and a nonpositive remainder, the
loop returns the negation of the gcd. -/
theorem pygcdAux_neg_result {F : Nat} {b r : Int} (hfuel : r.natAbs < F)
    (hb : b < 0) (hr : r ≤ 0) : pygcdAux F b r = -(Int.gcd b r) := by
  have hfuel' : (-r).natAbs < F := by omega
  have h1 := pygcdAux_pos_result (b := -b) (r := -r) hfuel' (by omega) (by omega)
  have e2 := pygcdAux_neg F (-b) (-r)
  rw [neg_neg, neg_neg] at e2
  rw [e2, h1]
  simp [Int.gcd]

theorem pygcd_of_pos (a : Int) {b : Int} (hb : 0 < b) :
    pygcd a b = .ok (Int.gcd a b) := by
  unfold pygcd
  rw [if_neg (by omega),
    pygcdAux_pos_result (by omega) hb (Int.fmod_nonneg' a hb), gcd_fmod_step]

theorem pygcd_of_neg (a : Int) {b : Int} (hb : b < 0) :
    pygcd a b = .ok (-(Int.gcd a b)) := by
  unfold pygcd
  rw [if_neg (by omega),
    pygcdAux_neg_result (by omega) hb (fmod_nonpos_of_neg a hb), gcd_fmod_step]

theorem ascProd_succ (a mm : Nat) : ascProd a (mm + 1) = ascProd a mm * (a + 1 + mm) := by
  unfold ascProd
  rw [List.range_succ, List.map_append, List.prod_append]
  simp

theorem ascProdI_succ (a : Int) (mm : Nat) :
    ascProdI a (mm + 1) = ascProdI a mm * (a + 1 + mm) := by
  unfold ascProdI
  rw [List.range_succ, List.map_append, List.prod_append]
  simp

theorem factorial_mul_ascProd (a : Nat) : ∀ m : Nat,
    a.factorial * ascProd a m = (a + m).factorial := by
  intro m
  induction m with
  | zero => simp [ascProd]
  | succ mm ih =>
    rw [ascProd_succ, show a + (mm + 1) = (a + mm) + 1 from rfl, Nat.factorial_succ, ← ih]
    ring

theorem ascProd_zero_eq_factorial (m : Nat) : ascProd 0 m = m.factorial := by
  have h := factorial_mul_ascProd 0 m
  simpa using h

theorem ascProd_pos (a m : Nat) : 0 < ascProd a m := by
  have h := factorial_mul_ascProd a m
  have h1 := Nat.factorial_pos a
  have h2 := Nat.factorial_pos (a + m)
  rcases Nat.eq_zero_or_pos (ascProd a m) with h0 | h0
  · rw [h0, Nat.mul_zero] at h
    omega
  · exact h0

theorem ascProd_choose {n k : Nat} (h : k ≤ n) :
    ascProd (n - k) k = n.choose k * k.factorial := by
  have h1 := factorial_mul_ascProd (n - k) k
  rw [Nat.sub_add_cancel h] at h1
  have h2 := Nat.choose_mul_factorial_mul_factorial h
  apply Nat.eq_of_mul_eq_mul_left (Nat.factorial_pos (n - k))
  rw [h1, ← h2]
  ring

theorem ascProdI_cast (b : Nat) : ∀ m : Nat, ascProdI (b : Int) m = (ascProd b m : Int) := by
  intro m
  induction m with
  | zero => simp [ascProdI, ascProd]
  | succ mm ih =>
    rw [ascProdI_succ, ascProd_succ, ih]
    push_cast
    ring

theorem ascProdI_cons (a : Int) (m : Nat) :
    ascProdI a (m + 1) = (a + 1) * ascProdI (a + 1) m := by
  unfold ascProdI
  rw [List.range_succ_eq_map, List.map_cons, List.prod_cons, List.map_map]
  have h2 : ((List.range m).map ((fun (j : Nat) => a + 1 + (j : Int)) ∘ Nat.succ)).prod
      = ((List.range m).map (fun (j : Nat) => a + 1 + 1 + (j : Int))).prod := by
    refine congrArg List.prod (List.map_congr_left (fun j _ => ?_))
    simp only [Function.comp]
    push_cast
    ring
  rw [h2]
  simp

theorem intRange_prod_eq (lo hi : Int) :
    (intRange lo hi).prod = ascProdI (lo - 1) ((hi + 1 - lo).toNat) := by
  unfold intRange ascProdI
  exact congrArg List.prod (List.map_congr_left (fun j _ => by ring))

theorem binLoop_spec (rp n k : Int) : ∀ (l : List Int) (num den : Int),
    (∀ i ∈ l, 0 < i ∧ 0 < n - (k - i)) → 0 < num → 0 < den →
    ∃ num2 den2, binLoop rp n k l (num, den) = .ok (num2, den2) ∧ 0 < num2 ∧ 0 < den2 ∧
      num2 * (den * l.prod) = den2 * (num * (l.map (fun i => n - (k - i))).prod) := by
  intro l
  induction l with
  | nil =>
    intro num den _ hnum hden
    exact ⟨num, den, rfl, hnum, hden, by
      simp only [List.map_nil, List.prod_nil, mul_one]
      ring⟩
  | cons i is ih =>
    intro num den hmem hnum hden
    obtain ⟨hi, hfi⟩ := hmem i (List.mem_cons_self i is)
    have hmem' : ∀ j ∈ is, 0 < j ∧ 0 < n - (k - j) :=
      fun j hj => hmem j (List.mem_cons_of_mem i hj)
    have hnum1 : 0 < num * (n - (k - i)) := mul_pos hnum hfi
    have hden1 : 0 < den * i := mul_pos hden hi
    by_cases hred : Int.fmod i rp = 0
    · have key := pygcd_of_pos (num * (n - (k - i))) hden1
      obtain ⟨g, hgdef⟩ : ∃ g : Int,
          ((Int.gcd (num * (n - (k - i))) (den * i) : Nat) : Int) = g := ⟨_, rfl⟩
      rw [hgdef] at key
      have hgpos : (0:Int) < g := by
        rw [← hgdef]
        exact_mod_cast Int.gcd_pos_of_ne_zero_left _ (ne_of_gt hnum1)
      obtain ⟨c, hc⟩ : g ∣ num * (n - (k - i)) := by
        rw [← hgdef]; exact Int.gcd_dvd_left
      obtain ⟨d, hd⟩ : g ∣ den * i := by
        rw [← hgdef]; exact Int.gcd_dvd_right
      have hcpos : 0 < c := by
        rcases mul_pos_iff.mp (hc ▸ hnum1) with ⟨_, h⟩ | ⟨h, _⟩
        · exact h
        · omega
      have hdpos : 0 < d := by
        rcases mul_pos_iff.mp (hd ▸ hden1) with ⟨_, h⟩ | ⟨h, _⟩
        · exact h
        · omega
      have hstep : binStep rp n k (num, den) i = .ok (c, d) := by
        simp only [binStep, if_pos hred, key]
        rw [hc, hd, Int.mul_fdiv_cancel_left _ (ne_of_gt hgpos),
          Int.mul_fdiv_cancel_left _ (ne_of_gt hgpos)]
      obtain ⟨num2, den2, hrun, h2, h3, heq⟩ := ih c d hmem' hcpos hdpos
      refine ⟨num2, den2, ?_, h2, h3, ?_⟩
      · simp only [binLoop, hstep, hrun]
      · simp only [List.prod_cons, List.map_cons]
        linear_combination g * heq + (num2 * is.prod) * hd
          - (den2 * ((is.map (fun i => n - (k - i))).prod)) * hc
    · have hstep : binStep rp n k (num, den) i = .ok (num * (n - (k - i)), den * i) := by
        simp only [binStep, if_neg hred]
      obtain ⟨num2, den2, hrun, h2, h3, heq⟩ :=
        ih (num * (n - (k - i))) (den * i) hmem' hnum1 hden1
      refine ⟨num2, den2, ?_, h2, h3, ?_⟩
      · simp only [binLoop, hstep, hrun]
      · simp only [List.prod_cons, List.map_cons]
        linear_combination heq

theorem den_prod_eq (k : Int) (hk : 1 ≤ k) :
    (intRange 2 k).prod = ((k.toNat.factorial : Nat) : Int) := by
  rw [intRange_prod_eq]
  have e1 : (2:Int) - 1 = ((1:Nat) : Int) := by norm_num
  have e2 : ((k + 1 - 2).toNat) = k.toNat - 1 := by omega
  rw [e1, e2, ascProdI_cast]
  congr 1
  have h3 := factorial_mul_ascProd 1 (k.toNat - 1)
  have e3 : 1 + (k.toNat - 1) = k.toNat := by omega
  rw [e3] at h3
  simpa using h3

theorem num_prod_eq (n k : Int) (h1 : 1 ≤ k) (h2 : k ≤ n) :
    (n - k + 1) * ((intRange 2 k).map (fun i => n - (k - i))).prod
      = ((n.toNat.choose k.toNat * k.toNat.factorial : Nat) : Int) := by
  have hmap : ((intRange 2 k).map (fun i => n - (k - i))).prod
      = ascProdI (n - k + 1) (k.toNat - 1) := by
    unfold intRange ascProdI
    rw [List.map_map]
    have e2 : ((k + 1 - 2).toNat) = k.toNat - 1 := by omega
    rw [e2]
    exact congrArg List.prod (List.map_congr_left (fun j _ => by
      simp only [Function.comp]
      ring))
  rw [hmap]
  have hcons := ascProdI_cons (n - k) (k.toNat - 1)
  have e4 : n - k + 1 = (n - k) + 1 := by ring
  rw [e4, ← hcons]
  have e5 : n - k = ((n.toNat - k.toNat : Nat) : Int) := by omega
  have e6 : (k.toNat - 1) + 1 = k.toNat := by omega
  rw [e5, e6, ascProdI_cast]
  congr 1
  exact ascProd_choose (by omega)

theorem binMain_eq (rp n k : Int) (h1 : 1 ≤ k) (h2 : k < n) :
    binMain rp n k = .ok ((n.toNat.choose k.toNat : Nat) : Int) := by
  obtain ⟨num2, den2, hrun, hnum2, hden2, heq⟩ :=
    binLoop_spec rp n k (intRange 2 k) (n - k + 1) 1
      (fun i hi => by
        have := mem_intRange.mp hi
        exact ⟨by omega, by omega⟩)
      (by omega) (by omega)
  simp only [binMain, hrun]
  rw [den_prod_eq k (by omega)] at heq
  rw [num_prod_eq n k (by omega) (by omega)] at heq
  have hkfac : ((k.toNat.factorial : Nat) : Int) ≠ 0 := by
    exact_mod_cast (Nat.factorial_pos k.toNat).ne'
  have hfin : num2 = den2 * ((n.toNat.choose k.toNat : Nat) : Int) := by
    apply mul_right_cancel₀ hkfac
    push_cast at heq ⊢
    linear_combination heq
  rw [hfin, Int.mul_fdiv_cancel_left _ (ne_of_gt hden2)]

/-- Function `binomial(n, k)` never raises, and returns `C(n, k)` in the domain
`0 ≤ k ≤ n` and `0` outside it — for any reduction period `rp`. -/
theorem binomialR_eq (rp n k : Int) :
    binomialR rp n k
      = .ok (if k < 0 ∨ n < 0 ∨ n < k then 0 else ((n.toNat.choose k.toNat : Nat) : Int)) := by
  unfold binomialR
  by_cases hg : n < k ∨ n < 0 ∨ k < 0
  · rw [if_pos hg, if_pos (show k < 0 ∨ n < 0 ∨ n < k by omega)]
  · rw [if_neg hg, if_neg (show ¬(k < 0 ∨ n < 0 ∨ n < k) by omega)]
    by_cases h2 : n = k
    · rw [if_pos h2]
      subst h2
      rw [Nat.choose_self]
      norm_num
    · rw [if_neg h2]
      by_cases h3 : k = 1
      · rw [if_pos h3]
        subst h3
        rw [show Int.toNat 1 = 1 from rfl, Nat.choose_one_right]
        congr 1
        omega
      · rw [if_neg h3]
        by_cases h4 : k = 0
        · rw [if_pos h4]
          subst h4
          rw [show Int.toNat 0 = 0 from rfl, Nat.choose_zero_right]
          norm_num
        · rw [if_neg h4]
          by_cases h5 : n - k < k
          · rw [if_pos h5, binMain_eq rp n (n - k) (by omega) (by omega)]
            have e : (n - k).toNat = n.toNat - k.toNat := by omega
            rw [e, Nat.choose_symm (by omega)]
          · rw [if_neg h5, binMain_eq rp n k (by omega) (by omega)]

/-- C1: for all integers `n` and `k`, `binomial(n, k)` returns `0` when
`k < 0`, `n < 0` or `n < k`; otherwise it returns `n! / (k! * (n-k)!)`;
moreover `binomial(n, 0) = 1`, `binomial(n, n) = 1` and `binomial(n, 1) = n`
for every `n ≥ 0`, and Pascal's identity
`binomial(n, k) = binomial(n-1, k-1) + binomial(n-1, k)` holds whenever
`0 < k < n`. -/
theorem claim_C1 (n k : Int) :
    ((k < 0 ∨ n < 0 ∨ n < k) → binomial n k = .ok 0) ∧
    (0 ≤ k → k ≤ n →
      binomial n k
        = .ok ((n.toNat.factorial / (k.toNat.factorial * (n.toNat - k.toNat).factorial) : Nat) : Int)) ∧
    (0 ≤ n → binomial n 0 = .ok 1 ∧ binomial n n = .ok 1 ∧ binomial n 1 = .ok n) ∧
    (0 < k → k < n →
      ∃ a b c, binomial n k = .ok a ∧ binomial (n - 1) (k - 1) = .ok b ∧
        binomial (n - 1) k = .ok c ∧ a = b + c) := by
  refine ⟨?_, ?_, ?_, ?_⟩
  · intro h
    unfold binomial
    rw [binomialR_eq, if_pos h]
  · intro h1 h2
    unfold binomial
    rw [binomialR_eq, if_neg (by omega), Nat.choose_eq_factorial_div_factorial (by omega)]
  · intro h
    refine ⟨?_, ?_, ?_⟩
    · unfold binomial
      rw [binomialR_eq, if_neg (by omega), show Int.toNat 0 = 0 from rfl,
        Nat.choose_zero_right]
      norm_num
    · unfold binomial
      rw [binomialR_eq, if_neg (by omega), Nat.choose_self]
      norm_num
    · by_cases hn : n = 0
      · subst hn
        unfold binomial
        rw [binomialR_eq, if_pos (by norm_num)]
      · unfold binomial
        rw [binomialR_eq, if_neg (by omega), show Int.toNat 1 = 1 from rfl,
          Nat.choose_one_right]
        congr 1
        omega
  · intro h1 h2
    refine ⟨((n.toNat.choose k.toNat : Nat) : Int),
      (((n - 1).toNat.choose (k - 1).toNat : Nat) : Int),
      (((n - 1).toNat.choose k.toNat : Nat) : Int), ?_, ?_, ?_, ?_⟩
    · unfold binomial
      rw [binomialR_eq, if_neg (by omega)]
    · unfold binomial
      rw [binomialR_eq, if_neg (by omega)]
    · unfold binomial
      rw [binomialR_eq, if_neg (by omega)]
    · have e1 : n.toNat = (n - 1).toNat + 1 := by omega
      have e2 : k.toNat = (k - 1).toNat + 1 := by omega
      have key : n.toNat.choose k.toNat
          = (n - 1).toNat.choose (k - 1).toNat + (n - 1).toNat.choose k.toNat := by
        rw [e1, e2, Nat.choose_succ_succ, Nat.succ_eq_add_one, ← e2]
      exact_mod_cast key

/-- Witness for C1 at concrete inputs. -/
theorem claim_C1_witness :
    binomial 5 2 = .ok 10 ∧ binomial 5 (-1) = .ok 0 ∧ binomial 4 1 = .ok 4 ∧
    (∃ a b c, binomial 5 2 = .ok a ∧ binomial 4 1 = .ok b ∧
      binomial 4 2 = .ok c ∧ a = b + c) := by
  refine ⟨?_, ?_, ?_, ?_⟩
  · have h := (claim_C1 5 2).2.1 (by decide) (by decide)
    rw [h]
    decide
  · exact (claim_C1 5 (-1)).1 (by decide)
  · exact ((claim_C1 4 1).2.2.1 (by decide)).2.2
  · exact (claim_C1 5 2).2.2.2 (by decide) (by decide)

/-- C2: claimed — for every non-empty list of non-negative parts with
positive sum, `multinomial` returns `(sum)! / (n1! * ... * nk!)`, so in
particular `multinomial([n]) = 1` and `multinomial([a,b]) = C(a+b, a)`.
The code violates this: on `[2, 0, 0, 2]` it returns `12` although
`4! / (2! * 0! * 0! * 2!) = 6`, and on the singleton `[5]` it raises
`IndexError` instead of returning `1`. -/
theorem claim_C2 :
    multinomial [2, 0, 0, 2] = .ok 12 ∧
    ((Nat.factorial 4 / (Nat.factorial 2 * Nat.factorial 0 * Nat.factorial 0
      * Nat.factorial 2) : Nat) = 6) ∧
    multinomial [5] = .exc .indexError := by
  decide

/-! ## Invariants of the `multinomial` loop -/
theorem foldl_max_init_le : ∀ (ys : List Int) (a : Int), a ≤ ys.foldl max a := by
  intro ys
  induction ys with
  | nil => intro a; simp
  | cons z zs ih => intro a; exact le_trans (le_max_left a z) (ih (max a z))

theorem mem_le_foldl_max : ∀ (ys : List Int) (a x : Int), x ∈ ys → x ≤ ys.foldl max a := by
  intro ys
  induction ys with
  | nil => intro a x hx; simp at hx
  | cons z zs ih =>
    intro a x hx
    rcases List.mem_cons.mp hx with rfl | hx'
    · exact le_trans (le_max_right a x) (foldl_max_init_le zs (max a x))
    · exact ih (max a z) x hx'

theorem le_listMax {l : List Int} {x : Int} (hx : x ∈ l) : x ≤ listMax l := by
  cases l with
  | nil => simp at hx
  | cons y ys =>
    rcases List.mem_cons.mp hx with rfl | h
    · exact foldl_max_init_le ys x
    · exact mem_le_foldl_max ys y x h

theorem sum_nonpos_of_forall {l : List Int} (h : ∀ x ∈ l, x ≤ 0) : l.sum ≤ 0 := by
  induction l with
  | nil => simp
  | cons y ys ih =>
    rw [List.sum_cons]
    have h1 := h y (by simp)
    have h2 := ih (fun x hx => h x (by simp [hx]))
    omega

theorem sum_nonneg_of_forall {l : List Int} (h : ∀ x ∈ l, 0 ≤ x) : 0 ≤ l.sum := by
  induction l with
  | nil => simp
  | cons y ys ih =>
    rw [List.sum_cons]
    have h1 := h y (by simp)
    have h2 := ih (fun x hx => h x (by simp [hx]))
    omega

theorem exists_pos_of_sum_ne_zero {l : List Int} (hsum : l.sum ≠ 0)
    (hnn : ∀ x ∈ l, 0 ≤ x) : ∃ x ∈ l, 0 < x := by
  by_contra hc
  push_neg at hc
  have h1 : l.sum ≤ 0 := sum_nonpos_of_forall hc
  have h2 : 0 ≤ l.sum := sum_nonneg_of_forall hnn
  omega

/-- Invariant of the `multinomial` loop: every pending index exceeds the
bound `B` and every pending denominator factor is at most `B`, so the
denominator never outgrows the numerator; the loop then returns without
raising, with `0 < den ≤ num`. -/
theorem multLoop_pos (rp B : Int) : ∀ (l : List Int) (num den m : Int) (rest : List Int),
    (∀ i ∈ l, B < i) → 0 < B → m ≤ B → (∀ x ∈ rest, x ≤ B) → 0 < den → den ≤ num →
    ∃ num2 den2, multLoop rp l num den m rest = .ok (num2, den2) ∧
      0 < den2 ∧ den2 ≤ num2 := by
  intro l
  induction l with
  | nil =>
    intro num den m rest _ _ _ _ hden hdn
    exact ⟨num, den, rfl, hden, hdn⟩
  | cons i is ih =>
    intro num den m rest hl hB hm hrest hden hdn
    have hi : B < i := hl i (List.mem_cons_self i is)
    have hl' : ∀ j ∈ is, B < j := fun j hj => hl j (List.mem_cons_of_mem i hj)
    have hnum : 0 < num := lt_of_lt_of_le hden hdn
    obtain ⟨den1, m1, rest1, hupd_eq, hden1, hle1, hm1, hrest1⟩ :
        ∃ den1 m1 rest1, multUpd den m rest = (den1, m1, rest1) ∧
          0 < den1 ∧ den1 ≤ num * i ∧ m1 ≤ B ∧ (∀ x ∈ rest1, x ≤ B) := by
      unfold multUpd
      by_cases h1 : 1 < m
      · rw [if_pos h1]
        refine ⟨den * m, m - 1, rest, rfl, mul_pos hden (by omega), ?_, by omega, hrest⟩
        calc den * m ≤ num * m := mul_le_mul_of_nonneg_right hdn (by omega)
          _ ≤ num * i := mul_le_mul_of_nonneg_left (by omega) (by omega)
      · rw [if_neg h1]
        cases rest with
        | nil =>
          exact ⟨den, m, [], rfl, hden,
            le_trans hdn (le_mul_of_one_le_right (by omega) (by omega)), hm, by simp⟩
        | cons r rs =>
          refine ⟨den, r, (r :: rs).erase r, rfl, hden,
            le_trans hdn (le_mul_of_one_le_right (by omega) (by omega)),
            hrest r (by simp), ?_⟩
          intro x hx
          exact hrest x (List.mem_of_mem_erase hx)
    by_cases hred : Int.fmod i rp = 0
    · have hnum1 : 0 < num * i := lt_of_lt_of_le hden1 hle1
      have key := pygcd_of_pos (num * i) hden1
      obtain ⟨g, hgdef⟩ : ∃ g : Int, ((Int.gcd (num * i) den1 : Nat) : Int) = g := ⟨_, rfl⟩
      rw [hgdef] at key
      have hgpos : (0:Int) < g := by
        rw [← hgdef]
        exact_mod_cast Int.gcd_pos_of_ne_zero_left _ (ne_of_gt hnum1)
      obtain ⟨c, hc⟩ : g ∣ num * i := by rw [← hgdef]; exact Int.gcd_dvd_left
      obtain ⟨d, hd⟩ : g ∣ den1 := by rw [← hgdef]; exact Int.gcd_dvd_right
      have hcpos : 0 < c := by
        rcases mul_pos_iff.mp (hc ▸ hnum1) with ⟨_, h⟩ | ⟨h, _⟩
        · exact h
        · omega
      have hdpos : 0 < d := by
        rcases mul_pos_iff.mp (hd ▸ hden1) with ⟨_, h⟩ | ⟨h, _⟩
        · exact h
        · omega
      have hdc : d ≤ c := by
        rw [hc, hd] at hle1
        exact le_of_mul_le_mul_left hle1 hgpos
      obtain ⟨num2, den2, hrun, h2, h3⟩ := ih c d m1 rest1 hl' hB hm1 hrest1 hdpos hdc
      have hfc : Int.fdiv (num * i) g = c := by
        rw [hc, Int.mul_fdiv_cancel_left _ (ne_of_gt hgpos)]
      have hfd : Int.fdiv den1 g = d := by
        rw [hd, Int.mul_fdiv_cancel_left _ (ne_of_gt hgpos)]
      exact ⟨num2, den2, by
        simp only [multLoop, hupd_eq, if_pos hred, key, hfc, hfd, hrun], h2, h3⟩
    · obtain ⟨num2, den2, hrun, h2, h3⟩ :=
        ih (num * i) den1 m1 rest1 hl' hB hm1 hrest1 hden1 hle1
      exact ⟨num2, den2, by simp only [multLoop, hupd_eq, if_neg hred, hrun], h2, h3⟩

/-- C5: `multinomial` returns the sentinel `0` exactly when the list is
empty, some part is negative, or the sum of the parts is `0`; on these
out-of-domain inputs no exception is raised (the result is `ok 0`, never
`exc`). -/
theorem claim_C5 (l : List Int) :
    multinomial l = .ok 0 ↔ (l = [] ∨ (∃ x ∈ l, x < 0) ∨ l.sum = 0) := by
  show multinomialR RP l = .ok 0 ↔ _
  unfold multinomialR
  by_cases h1 : l.length = 0
  · rw [if_pos h1]
    simp [List.length_eq_zero.mp h1]
  · rw [if_neg h1]
    by_cases h2 : l.any (fun x => x < 0)
    · rw [if_pos h2]
      simp only [List.any_eq_true, decide_eq_true_eq] at h2
      constructor
      · intro _
        exact Or.inr (Or.inl h2)
      · intro _
        rfl
    · rw [if_neg h2]
      simp only [List.any_eq_true, decide_eq_true_eq] at h2
      push_neg at h2
      have hnn : ∀ x ∈ l, 0 ≤ x := fun x hx => by have := h2 x hx; omega
      by_cases h3 : l.sum = 0
      · rw [if_pos h3]
        constructor
        · intro _
          exact Or.inr (Or.inr h3)
        · intro _
          rfl
      · rw [if_neg h3]
        have hRHS : ¬(l = [] ∨ (∃ x ∈ l, x < 0) ∨ l.sum = 0) := by
          rintro (rfl | ⟨x, hx, hxneg⟩ | hs)
          · exact h1 rfl
          · exact absurd (hnn x hx) (by omega)
          · exact h3 hs
        obtain ⟨p, hp, hppos⟩ := exists_pos_of_sum_ne_zero h3 hnn
        have hmaxpos : 0 < listMax l := lt_of_lt_of_le hppos (le_listMax hp)
        cases herase : l.erase (listMax l) with
        | nil =>
          apply iff_of_false _ hRHS
          simp
        | cons m0 rest0 =>
          have hmem0 : m0 ∈ l :=
            List.mem_of_mem_erase (herase ▸ List.mem_cons_self m0 rest0)
          obtain ⟨num2, den2, hrun, hden2, hdn2⟩ :=
            multLoop_pos RP (listMax l) (intRange (listMax l + 1) l.sum) 1 1 m0
              ((m0 :: rest0).erase m0)
              (fun i hi => by have := mem_intRange.mp hi; omega)
              hmaxpos (le_listMax hmem0)
              (fun x hx => by
                have hx1 : x ∈ m0 :: rest0 := List.mem_of_mem_erase hx
                have hx2 : x ∈ l := List.mem_of_mem_erase (herase ▸ hx1)
                exact le_listMax hx2)
              (by omega) (by omega)
          have hval : 1 ≤ Int.fdiv num2 den2 := by
            rw [Int.fdiv_eq_ediv _ (le_of_lt hden2), Int.le_ediv_iff_mul_le hden2]
            omega
          apply iff_of_false _ hRHS
          simp only [hrun]
          intro hcontra
          have : Int.fdiv num2 den2 = 0 := by
            have := PyResult.ok.inj hcontra
            omega
          omega

/-! ## Reduction-period invariance machinery -/
theorem ediv_le_ediv_of_cross {a b c d : Int} (hb : 0 < b) (hd : 0 < d)
    (h : a * d ≤ c * b) : a / b ≤ c / d := by
  rw [Int.le_ediv_iff_mul_le hd]
  have h1 : b * (a / b) ≤ a := by
    have h2 := Int.ediv_add_emod a b
    have h3 := Int.emod_nonneg a (ne_of_gt hb)
    omega
  have h4 : (a / b) * d * b ≤ c * b := by
    calc (a / b) * d * b = (b * (a / b)) * d := by ring
      _ ≤ a * d := mul_le_mul_of_nonneg_right h1 (by omega)
      _ ≤ c * b := h
  exact le_of_mul_le_mul_right h4 hb

/-- Two fractions with positive denominators and equal cross products have
the same floor quotient. -/
theorem fdiv_congr_cross {a b c d : Int} (hb : 0 < b) (hd : 0 < d)
    (h : a * d = c * b) : Int.fdiv a b = Int.fdiv c d := by
  rw [Int.fdiv_eq_ediv _ (le_of_lt hb), Int.fdiv_eq_ediv _ (le_of_lt hd)]
  apply le_antisymm
  · exact ediv_le_ediv_of_cross hb hd (le_of_eq h)
  · exact ediv_le_ediv_of_cross hd hb (le_of_eq h.symm)

/-- The factor the `multinomial` update multiplies into `den`, shared
between the run with reduction and the reduction-free skeleton. -/
theorem multUpd_cases (den m : Int) (rest : List Int) :
    ∃ f m1 rest1, 0 < f ∧ multUpd den m rest = (den * f, m1, rest1) ∧
      multUpd 1 m rest = (f, m1, rest1) := by
  unfold multUpd
  by_cases h1 : 1 < m
  · rw [if_pos h1, if_pos h1]
    exact ⟨m, m - 1, rest, by omega, rfl, by rw [one_mul]⟩
  · rw [if_neg h1, if_neg h1]
    cases rest with
    | nil => exact ⟨1, m, [], one_pos, by rw [mul_one], rfl⟩
    | cons r rs => exact ⟨1, r, (r :: rs).erase r, one_pos, by rw [mul_one], rfl⟩

theorem rawLoop_pos : ∀ (l : List Int) (m : Int) (rest : List Int),
    (∀ i ∈ l, 0 < i) → 0 < (rawLoop l m rest).1 ∧ 0 < (rawLoop l m rest).2 := by
  intro l
  induction l with
  | nil => intro m rest _; exact ⟨one_pos, one_pos⟩
  | cons i is ih =>
    intro m rest hl
    obtain ⟨f, m1, rest1, hf, _, hupd1⟩ := multUpd_cases 1 m rest
    have hi := hl i (List.mem_cons_self i is)
    have ihm := ih m1 rest1 (fun j hj => hl j (List.mem_cons_of_mem i hj))
    cases hN : rawLoop is m1 rest1 with
    | mk N D =>
      rw [hN] at ihm
      simp only [rawLoop, hupd1, hN]
      exact ⟨mul_pos hi ihm.1, mul_pos hf ihm.2⟩

/-- For any reduction period, the `multinomial` loop returns a pair whose
ratio equals the ratio of the raw products. -/
theorem multLoop_raw (rp : Int) : ∀ (l : List Int) (num den m : Int) (rest : List Int),
    (∀ i ∈ l, 0 < i) → 0 < num → 0 < den →
    ∃ num2 den2, multLoop rp l num den m rest = .ok (num2, den2) ∧ 0 < num2 ∧ 0 < den2 ∧
      num2 * (den * (rawLoop l m rest).2) = den2 * (num * (rawLoop l m rest).1) := by
  intro l
  induction l with
  | nil =>
    intro num den m rest _ hnum hden
    refine ⟨num, den, rfl, hnum, hden, ?_⟩
    simp only [rawLoop]
    ring
  | cons i is ih =>
    intro num den m rest hl hnum hden
    have hi := hl i (List.mem_cons_self i is)
    have hl' : ∀ j ∈ is, 0 < j := fun j hj => hl j (List.mem_cons_of_mem i hj)
    obtain ⟨f, m1, rest1, hf, hupdden, hupd1⟩ := multUpd_cases den m rest
    have hden1 : 0 < den * f := mul_pos hden hf
    have hnum1 : 0 < num * i := mul_pos hnum hi
    cases hNd : rawLoop is m1 rest1 with
    | mk N D =>
      have hraw : rawLoop (i :: is) m rest = (i * N, f * D) := by
        simp only [rawLoop, hupd1, hNd]
      rw [hraw]
      by_cases hred : Int.fmod i rp = 0
      · have key := pygcd_of_pos (num * i) hden1
        obtain ⟨g, hgdef⟩ : ∃ g : Int, ((Int.gcd (num * i) (den * f) : Nat) : Int) = g :=
          ⟨_, rfl⟩
        rw [hgdef] at key
        have hgpos : (0:Int) < g := by
          rw [← hgdef]
          exact_mod_cast Int.gcd_pos_of_ne_zero_left _ (ne_of_gt hnum1)
        obtain ⟨c, hc⟩ : g ∣ num * i := by rw [← hgdef]; exact Int.gcd_dvd_left
        obtain ⟨d, hd⟩ : g ∣ den * f := by rw [← hgdef]; exact Int.gcd_dvd_right
        have hcpos : 0 < c := by
          rcases mul_pos_iff.mp (hc ▸ hnum1) with ⟨_, h⟩ | ⟨h, _⟩
          · exact h
          · omega
        have hdpos : 0 < d := by
          rcases mul_pos_iff.mp (hd ▸ hden1) with ⟨_, h⟩ | ⟨h, _⟩
          · exact h
          · omega
        have hfc : Int.fdiv (num * i) g = c := by
          rw [hc, Int.mul_fdiv_cancel_left _ (ne_of_gt hgpos)]
        have hfd : Int.fdiv (den * f) g = d := by
          rw [hd, Int.mul_fdiv_cancel_left _ (ne_of_gt hgpos)]
        obtain ⟨num2, den2, hrun, hn2, hd2, heq⟩ := ih c d m1 rest1 hl' hcpos hdpos
        rw [hNd] at heq
        refine ⟨num2, den2, ?_, hn2, hd2, ?_⟩
        · simp only [multLoop, hupdden, if_pos hred, key, hfc, hfd, hrun]
        · linear_combination g * heq + (num2 * D) * hd - (den2 * N) * hc
      · obtain ⟨num2, den2, hrun, hn2, hd2, heq⟩ :=
          ih (num * i) (den * f) m1 rest1 hl' hnum1 hden1
        rw [hNd] at heq
        refine ⟨num2, den2, ?_, hn2, hd2, ?_⟩
        · simp only [multLoop, hupdden, if_neg hred, hrun]
        · linear_combination heq

/-- The value of `multinomial` does not depend on the reduction period. -/
theorem multinomialR_invariant (rp : Int) (l : List Int) :
    multinomialR rp l = multinomialR RP l := by
  unfold multinomialR
  by_cases h1 : l.length = 0
  · rw [if_pos h1, if_pos h1]
  · rw [if_neg h1, if_neg h1]
    by_cases h2 : l.any (fun x => x < 0)
    · rw [if_pos h2, if_pos h2]
    · rw [if_neg h2, if_neg h2]
      by_cases h3 : l.sum = 0
      · rw [if_pos h3, if_pos h3]
      · rw [if_neg h3, if_neg h3]
        simp only [List.any_eq_true, decide_eq_true_eq] at h2
        push_neg at h2
        have hnn : ∀ x ∈ l, 0 ≤ x := fun x hx => by have := h2 x hx; omega
        cases herase : l.erase (listMax l) with
        | nil => rfl
        | cons m0 rest0 =>
          have hmax0 : 0 ≤ listMax l := by
            cases l with
            | nil => exact absurd rfl h1
            | cons y ys =>
              exact le_trans (hnn y (by simp)) (le_listMax (by simp))
          have hpos : ∀ i ∈ intRange (listMax l + 1) l.sum, 0 < i :=
            fun i hi => by have := mem_intRange.mp hi; omega
          obtain ⟨a1, b1, hrun1, ha1, hb1, heq1⟩ :=
            multLoop_raw rp (intRange (listMax l + 1) l.sum) 1 1 m0
              ((m0 :: rest0).erase m0) hpos one_pos one_pos
          obtain ⟨a2, b2, hrun2, ha2, hb2, heq2⟩ :=
            multLoop_raw RP (intRange (listMax l + 1) l.sum) 1 1 m0
              ((m0 :: rest0).erase m0) hpos one_pos one_pos
          obtain ⟨hNpos, hDpos⟩ :=
            rawLoop_pos (intRange (listMax l + 1) l.sum) m0 ((m0 :: rest0).erase m0) hpos
          simp only [hrun1, hrun2]
          have hcross : a1 * b2 = a2 * b1 := by
            have hD : (rawLoop (intRange (listMax l + 1) l.sum) m0
                ((m0 :: rest0).erase m0)).2 ≠ 0 := ne_of_gt hDpos
            apply mul_right_cancel₀ hD
            linear_combination b2 * heq1 - b1 * heq2
          rw [fdiv_congr_cross hb1 hb2 hcross]

theorem binomialR_invariant (rp : Int) : binomialR rp = binomialR RP := by
  funext n k
  rw [binomialR_eq, binomialR_eq]

theorem stirling2R_invariant (rp : Int) : stirling2R rp = stirling2R RP := by
  funext n m
  unfold stirling2R
  rw [binomialR_invariant]

theorem delannoyR_invariant (rp : Int) : delannoyR rp = delannoyR RP := by
  funext m n
  unfold delannoyR
  rw [binomialR_invariant]

/-- C3: varying the reduction period constant (any integer `rp > 0`) does
not change the value returned by `binomial` or `multinomial`, nor by any
derived sequence function; it affects performance only. -/
theorem claim_C3 (rp : Int) (hrp : 0 < rp) :
    (∀ n k, binomialR rp n k = binomial n k) ∧
    (∀ l, multinomialR rp l = multinomial l) ∧
    (∀ n, catalanR rp n = catalan n) ∧
    (∀ n m, stirling2R rp n m = stirling2 n m) ∧
    (∀ n m, stirling1R rp n m = stirling1 n m) ∧
    (∀ n, bellR rp n = bell n) ∧
    (∀ n k, lahR rp n k = lah n k) ∧
    (∀ m n, delannoyR rp m n = delannoy m n) ∧
    (∀ n, motzkinR rp n = motzkin n) ∧
    (∀ n k, narayanaR rp n k = narayana n k) ∧
    (∀ n, schroderR rp n = schroder n) ∧
    (∀ n k, eulerianR rp n k = eulerian n k) := by
  refine ⟨?_, ?_, ?_, ?_, ?_, ?_, ?_, ?_, ?_, ?_, ?_, ?_⟩
  · intro n k
    show binomialR rp n k = binomialR RP n k
    rw [binomialR_invariant]
  · intro l
    exact multinomialR_invariant rp l
  · intro n
    show catalanR rp n = catalanR RP n
    unfold catalanR
    rw [binomialR_invariant]
  · intro n m
    show stirling2R rp n m = stirling2R RP n m
    rw [stirling2R_invariant]
  · intro n m
    show stirling1R rp n m = stirling1R RP n m
    unfold stirling1R
    rw [binomialR_invariant, stirling2R_invariant]
  · intro n
    show bellR rp n = bellR RP n
    unfold bellR
    rw [stirling2R_invariant]
  · intro n k
    show lahR rp n k = lahR RP n k
    unfold lahR
    rw [binomialR_invariant]
  · intro m n
    show delannoyR rp m n = delannoyR RP m n
    rw [delannoyR_invariant]
  · intro n
    show motzkinR rp n = motzkinR RP n
    unfold motzkinR
    rw [binomialR_invariant]
  · intro n k
    show narayanaR rp n k = narayanaR RP n k
    unfold narayanaR
    rw [binomialR_invariant]
  · intro n
    show schroderR rp n = schroderR RP n
    unfold schroderR
    rw [delannoyR_invariant]
  · intro n k
    show eulerianR rp n k = eulerianR RP n k
    unfold eulerianR
    rw [binomialR_invariant]

/-- Witness for C3 at the concrete period `rp = 5`. -/
theorem claim_C3_witness :
    binomialR 5 10 4 = binomial 10 4 ∧
    multinomialR 5 [3, 2, 1] = multinomial [3, 2, 1] ∧
    schroderR 5 2 = schroder 2 :=
  ⟨(claim_C3 5 (by decide)).1 10 4, (claim_C3 5 (by decide)).2.1 [3, 2, 1],
    (claim_C3 5 (by decide)).2.2.2.2.2.2.2.2.2.2.1 2⟩

/-! ## `lah` (claim C4) -/
theorem intRange_nil {lo hi : Int} (h : hi < lo) : intRange lo hi = [] := by
  unfold intRange
  rw [show (hi + 1 - lo).toNat = 0 by omega]
  rfl

theorem intRange_singleton (x : Int) : intRange x x = [x] := by
  unfold intRange
  rw [show (x + 1 - x).toNat = 1 by omega, show List.range 1 = [0] from rfl]
  simp

theorem prod_eq_intRange_prod {m n : Int} (h : m ≤ n) :
    prod m n = (intRange m n).prod := by
  unfold prod
  rw [if_neg (by omega)]
  by_cases h2 : n = m
  · rw [if_pos h2, h2, intRange_singleton]
    simp
  · rw [if_neg h2]

/-- C4 counterexample: the claim states
`lah(n, k) = prod(k+1, n) * binomial(n-1, k-1)` on the whole non-guard
region, "in particular for n == k"; but at `n = k = 3` the code returns
`1` while `prod(4, 3) = 0` makes the claimed value `0`. -/
theorem claim_C4_cex :
    lah 3 3 ≠ (match binomial 2 2 with
      | .ok b => PyResult.ok (prod 4 3 * b)
      | .exc e => PyResult.exc e) := by
  decide

/-- C4 (amended): `lah(n, k)` returns 0 when `n < k`, `n < 1` or `k < 1`;
otherwise it returns the product of the integers in `[k+1, n]` — taken as
`1`, not `prod`'s sentinel `0`, when the range is empty — times
`binomial(n-1, k-1)`.  This agrees with
`prod(k+1, n) * binomial(n-1, k-1)` whenever `k < n`, but for `n == k`
(empty range) the result is `lah(n, n) = 1`, not `0`. -/
theorem claim_C4 (n k : Int) :
    ((n < k ∨ n < 1 ∨ k < 1) → lah n k = .ok 0) ∧
    (1 ≤ k → k < n →
      ∃ b, binomial (n - 1) (k - 1) = .ok b ∧ lah n k = .ok (prod (k + 1) n * b)) ∧
    (1 ≤ n → lah n n = .ok 1) := by
  refine ⟨?_, ?_, ?_⟩
  · intro h
    show lahR RP n k = _
    unfold lahR
    rw [if_pos h]
  · intro h1 h2
    refine ⟨(((n - 1).toNat.choose ((k - 1).toNat) : Nat) : Int), ?_, ?_⟩
    · show binomialR RP (n - 1) (k - 1) = _
      rw [binomialR_eq, if_neg (by omega)]
    · show lahR RP n k = _
      unfold lahR
      rw [if_neg (by omega)]
      simp only [binomialR_eq, if_neg (show ¬(k - 1 < 0 ∨ n - 1 < 0 ∨ n - 1 < k - 1) by omega)]
      rw [prod_eq_intRange_prod (by omega)]
  · intro h
    show lahR RP n n = _
    unfold lahR
    rw [if_neg (by omega)]
    simp only [binomialR_eq, if_neg (show ¬(n - 1 < 0 ∨ n - 1 < 0 ∨ n - 1 < n - 1) by omega)]
    rw [Nat.choose_self, intRange_nil (by omega)]
    simp

/-- Witness for C4 at concrete inputs. -/
theorem claim_C4_witness :
    lah 0 5 = .ok 0 ∧ lah 3 3 = .ok 1 ∧
    (∃ b, binomial 4 1 = .ok b ∧ lah 5 2 = .ok (prod 3 5 * b)) :=
  ⟨(claim_C4 0 5).1 (by decide), (claim_C4 3 3).2.2 (by decide),
    (claim_C4 5 2).2.1 (by decide) (by decide)⟩

/-! ## `gcd` error behaviour (claim C6) -/
/-- C6 counterexample: the claim states that for all `a`, `b` with
`b ≠ 0` the loop "returns the greatest common divisor of a and b"; but
`gcd(6, -4)` returns `-2` in Python's floor-mod semantics, while the
greatest common divisor of `6` and `-4` is `2`. -/
theorem claim_C6_cex : pygcd 6 (-4) ≠ .ok ((Int.gcd 6 (-4) : Nat) : Int) := by
  decide

/-- C6 (amended): `gcd(a, b)` raises `ZeroDivisionError` exactly when
`b == 0`; for `b ≠ 0` its Euclidean remainder loop terminates and returns
the greatest common divisor of `a` and `b` when `b > 0`, and the
*negation* of the greatest common divisor when `b < 0` (Python's `%` has
the sign of its second operand).  This failure is unreachable through
`binomial` and `multinomial`: `binomial` always returns a value and
`multinomial` never raises `ZeroDivisionError`, because their denominator
accumulators are always positive when `gcd` is called. -/
theorem claim_C6 :
    (∀ a b : Int, pygcd a b = .exc .zeroDiv ↔ b = 0) ∧
    (∀ a b : Int, 0 < b → pygcd a b = .ok ((Int.gcd a b : Nat) : Int)) ∧
    (∀ a b : Int, b < 0 → pygcd a b = .ok (-((Int.gcd a b : Nat) : Int))) ∧
    (∀ n k : Int, ∃ v, binomial n k = .ok v) ∧
    (∀ l : List Int, multinomial l ≠ .exc .zeroDiv) := by
  refine ⟨?_, ?_, ?_, ?_, ?_⟩
  · intro a b
    constructor
    · intro h
      by_contra hb
      rcases lt_or_gt_of_ne hb with hneg | hpos
      · rw [pygcd_of_neg a hneg] at h
        exact PyResult.noConfusion h
      · rw [pygcd_of_pos a hpos] at h
        exact PyResult.noConfusion h
    · intro h
      subst h
      exact pygcd_zero a
  · intro a b hb
    exact pygcd_of_pos a hb
  · intro a b hb
    exact pygcd_of_neg a hb
  · intro n k
    exact ⟨_, binomialR_eq RP n k⟩
  · intro l
    show multinomialR RP l ≠ _
    unfold multinomialR
    by_cases h1 : l.length = 0
    · rw [if_pos h1]
      exact PyResult.noConfusion
    · rw [if_neg h1]
      by_cases h2 : l.any (fun x => x < 0)
      · rw [if_pos h2]
        exact PyResult.noConfusion
      · rw [if_neg h2]
        by_cases h3 : l.sum = 0
        · rw [if_pos h3]
          exact PyResult.noConfusion
        · rw [if_neg h3]
          simp only [List.any_eq_true, decide_eq_true_eq] at h2
          push_neg at h2
          have hnn : ∀ x ∈ l, 0 ≤ x := fun x hx => by have := h2 x hx; omega
          cases herase : l.erase (listMax l) with
          | nil =>
            intro hcontra
            exact PyExc.noConfusion (PyResult.exc.inj hcontra)
          | cons m0 rest0 =>
            have hmax0 : 0 ≤ listMax l := by
              cases l with
              | nil => exact absurd rfl h1
              | cons y ys =>
                exact le_trans (hnn y (by simp)) (le_listMax (by simp))
            obtain ⟨a1, b1, hrun1, _, _, _⟩ :=
              multLoop_raw RP (intRange (listMax l + 1) l.sum) 1 1 m0
                ((m0 :: rest0).erase m0)
                (fun i hi => by have := mem_intRange.mp hi; omega) one_pos one_pos
            simp only [hrun1]
            exact PyResult.noConfusion

/-- Witness for C6 at concrete inputs. -/
theorem claim_C6_witness :
    pygcd 5 0 = .exc .zeroDiv ∧ pygcd 12 8 = .ok 4 ∧ pygcd 12 (-8) = .ok (-4) ∧
    (∃ v, binomial 6 3 = .ok v) ∧ multinomial [1, 1] ≠ .exc .zeroDiv := by
  refine ⟨(claim_C6.1 5 0).mpr rfl, ?_, ?_, claim_C6.2.2.2.1 6 3, claim_C6.2.2.2.2 [1, 1]⟩
  · have h := claim_C6.2.1 12 8 (by decide)
    rw [h]
    decide
  · have h := claim_C6.2.2.1 12 (-8) (by decide)
    rw [h]
    decide

/-! ## `delannoy` as a closed sum (claims C8 and C10) -/
theorem binomialR_eq_choose (rp n k : Int) (hn : 0 ≤ n) (hk : 0 ≤ k) :
    binomialR rp n k = .ok ((n.toNat.choose k.toNat : Nat) : Int) := by
  rw [binomialR_eq]
  by_cases h : n < k
  · rw [if_pos (Or.inr (Or.inr h)), Nat.choose_eq_zero_of_lt (by omega)]
    norm_num
  · rw [if_neg (by omega)]

theorem sum_map_range (h : Nat → Int) : ∀ nn : Nat,
    ((List.range nn).map h).sum = ∑ j in Finset.range nn, h j := by
  intro nn
  induction nn with
  | zero => simp
  | succ t ih =>
    rw [List.range_succ, List.map_append, List.sum_append, Finset.sum_range_succ, ih]
    simp

theorem intRange_zero_sum (m : Int) (g : Int → Int) (hm : 0 ≤ m) :
    ((intRange 0 m).map g).sum = ∑ j in Finset.range (m.toNat + 1), g (j : Int) := by
  unfold intRange
  rw [List.map_map, show (m + 1 - 0).toNat = m.toNat + 1 by omega]
  rw [show ((List.range (m.toNat + 1)).map (g ∘ fun (j : Nat) => (0 : Int) + (j : Int)))
      = ((List.range (m.toNat + 1)).map (fun (j : Nat) => g (j : Int))) from
    List.map_congr_left (fun j _ => by simp)]
  exact sum_map_range _ _

theorem delLoop_spec (rp m n : Int) (hm : 0 ≤ m) (hn : 0 ≤ n) :
    ∀ (l : List Int) (acc : Int), (∀ kk ∈ l, 0 ≤ kk) →
    delLoop (binomialR rp) m n l acc
      = .ok (acc + (l.map (fun kk => 2 ^ kk.toNat
          * ((m.toNat.choose kk.toNat : Nat) : Int)
          * ((n.toNat.choose kk.toNat : Nat) : Int))).sum) := by
  intro l
  induction l with
  | nil =>
    intro acc _
    simp [delLoop]
  | cons kk ks ih =>
    intro acc hmem
    have hkk : 0 ≤ kk := hmem kk (List.mem_cons_self kk ks)
    simp only [delLoop, binomialR_eq_choose rp m kk hm hkk,
      binomialR_eq_choose rp n kk hn hkk,
      ih _ (fun x hx => hmem x (List.mem_cons_of_mem kk hx)),
      List.map_cons, List.sum_cons]
    congr 1
    ring

theorem delannoyR_eq (rp m n : Int) (hm : 0 ≤ m) (hn : 0 ≤ n) :
    delannoyR rp m n = .ok (∑ kk in Finset.range (n.toNat + 1),
      2 ^ kk * ((m.toNat.choose kk : Nat) : Int) * ((n.toNat.choose kk : Nat) : Int)) := by
  unfold delannoyR
  rw [if_neg (by omega),
    delLoop_spec rp m n hm hn (intRange 0 n) 0 (fun kk hk => (mem_intRange.mp hk).1),
    zero_add, intRange_zero_sum n _ hn]
  congr 1

/-- C8: `schroder(n)` returns `delannoy(n, n) - delannoy(n+1, n-1)` for
`n ≥ 0` and `0` for `n < 0`; for `n = 0` the second Delannoy call receives
the negative argument `-1` and returns `0` by `delannoy`'s contract, so
`schroder(0) = 1`; also `schroder(1) = 2` and `schroder(2) = 6`. -/
theorem claim_C8 (n : Int) :
    (0 ≤ n → ∃ a b, delannoy n n = .ok a ∧ delannoy (n + 1) (n - 1) = .ok b ∧
      schroder n = .ok (a - b)) ∧
    (n < 0 → schroder n = .ok 0) ∧
    delannoy 1 (-1) = .ok 0 ∧
    schroder 0 = .ok 1 ∧ schroder 1 = .ok 2 ∧ schroder 2 = .ok 6 := by
  refine ⟨?_, ?_, by decide, by decide, by decide, by decide⟩
  · intro hn
    by_cases hn0 : n = 0
    · subst hn0
      exact ⟨1, 0, by decide, by decide, by decide⟩
    · refine ⟨_, _, delannoyR_eq RP n n hn hn,
        delannoyR_eq RP (n + 1) (n - 1) (by omega) (by omega), ?_⟩
      show schroderR RP n = _
      simp only [schroderR, if_neg (show ¬n < 0 by omega),
        delannoyR_eq RP n n hn hn,
        delannoyR_eq RP (n + 1) (n - 1) (by omega) (by omega)]
  · intro hn
    show schroderR RP n = _
    unfold schroderR
    rw [if_pos hn]

/-- Witness for C8 at concrete inputs. -/
theorem claim_C8_witness :
    (∃ a b, delannoy 2 2 = .ok a ∧ delannoy (2 + 1) (2 - 1) = .ok b ∧
      schroder 2 = .ok (a - b)) ∧
    schroder (-3) = .ok 0 :=
  ⟨(claim_C8 2).1 (by decide), (claim_C8 (-3)).2.1 (by decide)⟩

/-- C10: Delannoy numbers are symmetric, `delannoy(m, n) = delannoy(n, m)`
for all `m, n ≥ 0`, although the implementation's summation index runs
only up to the second argument. -/
theorem claim_C10 (m n : Int) (hm : 0 ≤ m) (hn : 0 ≤ n) :
    delannoy m n = delannoy n m := by
  show delannoyR RP m n = delannoyR RP n m
  rw [delannoyR_eq RP m n hm hn, delannoyR_eq RP n m hn hm]
  have key : ∀ (A B : Nat),
      ∑ kk in Finset.range (B + 1), 2 ^ kk * ((A.choose kk : Nat) : Int)
        * ((B.choose kk : Nat) : Int)
      = ∑ kk in Finset.range (max A B + 1), 2 ^ kk * ((A.choose kk : Nat) : Int)
        * ((B.choose kk : Nat) : Int) := by
    intro A B
    apply Finset.sum_subset
    · exact Finset.range_subset.mpr (by omega)
    · intro x hx hnx
      have hBx : B < x := by
        simp only [Finset.mem_range] at hx hnx
        omega
      rw [Nat.choose_eq_zero_of_lt hBx]
      simp
  rw [key m.toNat n.toNat, key n.toNat m.toNat, Nat.max_comm n.toNat m.toNat]
  exact congrArg _ (Finset.sum_congr rfl (fun kk _ => by ring))

/-- Witness for C10 at concrete inputs. -/
theorem claim_C10_witness : delannoy 2 3 = delannoy 3 2 :=
  claim_C10 2 3 (by decide) (by decide)

theorem hwrite_heap_ne (σ : HState) (a c : Nat) (l : List Int) (h : c ≠ a) :
    (hwrite σ a l).heap c = σ.heap c := by
  unfold hwrite
  simp [h]

/-- The loop writes only to the working cell `b`. -/
theorem multLoopH_frame (rp : Int) : ∀ (l : List Int) (num den m : Int) (b : Nat)
    (σ : HState) (c : Nat), c ≠ b →
    ((multLoopH rp l num den m b σ).2).heap c = σ.heap c := by
  intro l
  induction l with
  | nil => intro num den m b σ c _; rfl
  | cons i is ih =>
    intro num den m b σ c hc
    obtain ⟨den1, m1, σ1, hupd, hheap⟩ : ∃ den1 m1 σ1,
        (if 1 < m then (den * m, m - 1, σ)
         else match hread σ b with
              | [] => (den, m, σ)
              | r :: _ => (den, r, hwrite σ b ((hread σ b).erase r)))
          = (den1, m1, σ1) ∧ σ1.heap c = σ.heap c := by
      by_cases h1 : 1 < m
      · rw [if_pos h1]
        exact ⟨den * m, m - 1, σ, rfl, rfl⟩
      · rw [if_neg h1]
        cases hr : hread σ b with
        | nil => exact ⟨den, m, σ, rfl, rfl⟩
        | cons r rs =>
          exact ⟨den, r, hwrite σ b ((r :: rs).erase r), rfl,
            hwrite_heap_ne σ b c _ hc⟩
    by_cases hred : Int.fmod i rp = 0
    · cases hg : pygcd (num * i) den1 with
      | exc e =>
        simp only [multLoopH, hupd, if_pos hred, hg]
        exact hheap
      | ok g =>
        simp only [multLoopH, hupd, if_pos hred, hg]
        rw [ih _ _ _ b σ1 c hc, hheap]
    · simp only [multLoopH, hupd, if_neg hred]
      rw [ih _ _ _ b σ1 c hc, hheap]

/-- C9: `multinomial` never mutates the caller's sequence: for every heap
state and every live address `a`, the caller's list at `a` is unchanged
after the call (all destructive removals act on the freshly allocated
working copy, whose address differs from every live address). -/
theorem claim_C9 (rp : Int) (σ : HState) (a : Nat) (ha : a < σ.next) :
    ((multinomialH rp σ a).2).heap a = σ.heap a := by
  have hab : a ≠ σ.next := by omega
  unfold multinomialH
  have halloc1 : ((halloc σ (hread σ a)).1).heap a = σ.heap a := by
    unfold halloc
    simp [hab]
  by_cases h1 : (hread (halloc σ (hread σ a)).1 (halloc σ (hread σ a)).2).length = 0
  · simp only [if_pos h1]
    exact halloc1
  · simp only [if_neg h1]
    by_cases h2 : (hread (halloc σ (hread σ a)).1 (halloc σ (hread σ a)).2).any
        (fun x => x < 0)
    · simp only [if_pos h2]
      exact halloc1
    · simp only [if_neg h2]
      by_cases h3 : (hread (halloc σ (hread σ a)).1 (halloc σ (hread σ a)).2).sum = 0
      · simp only [if_pos h3]
        exact halloc1
      · simp only [if_neg h3]
        have hb : (halloc σ (hread σ a)).2 = σ.next := rfl
        have hwr2 : ∀ l : List Int,
            ((hwrite (halloc σ (hread σ a)).1 (halloc σ (hread σ a)).2 l)).heap a
              = σ.heap a := by
          intro l
          rw [hwrite_heap_ne _ _ _ _ (by rw [hb]; exact hab)]
          exact halloc1
        cases hm : hread (hwrite (halloc σ (hread σ a)).1 (halloc σ (hread σ a)).2
            ((hread (halloc σ (hread σ a)).1 (halloc σ (hread σ a)).2).erase
              (listMax (hread (halloc σ (hread σ a)).1 (halloc σ (hread σ a)).2))))
            (halloc σ (hread σ a)).2 with
        | nil =>
          simp only [hm]
          exact hwr2 _
        | cons m0 rest0 =>
          simp only [hm]
          rw [multLoopH_frame rp _ _ _ _ _ _ a (by rw [hb]; exact hab)]
          rw [hwrite_heap_ne _ _ _ _ (by rw [hb]; exact hab)]
          exact hwr2 _

/-- Witness for C9 at a concrete heap state. -/
theorem claim_C9_witness :
    ((multinomialH 16 ⟨fun _ => [2, 1], 1⟩ 0).2).heap 0 = [2, 1] :=
  claim_C9 16 ⟨fun _ => [2, 1], 1⟩ 0 (by decide)

/-! ### Adequacy of the heap model

The heap-model `multinomialH` computes the same result as the pure
`multinomialR`, so the frame theorem above is about the same function that
the other claims reason about. -/
theorem hread_hwrite_self (σ : HState) (a : Nat) (l : List Int) :
    hread (hwrite σ a l) a = l := by
  unfold hread hwrite
  simp

theorem multLoopH_fst (rp : Int) : ∀ (l : List Int) (num den m : Int) (b : Nat) (σ : HState),
    (multLoopH rp l num den m b σ).1
      = (match multLoop rp l num den m (hread σ b) with
         | .ok p => .ok (Int.fdiv p.1 p.2)
         | .exc e => .exc e) := by
  intro l
  induction l with
  | nil => intro num den m b σ; rfl
  | cons i is ih =>
    intro num den m b σ
    by_cases h1 : 1 < m
    · by_cases hred : Int.fmod i rp = 0
      · cases hg : pygcd (num * i) (den * m) with
        | exc e =>
          simp only [multLoopH, multLoop, multUpd, if_pos h1, if_pos hred, hg]
        | ok g =>
          simp only [multLoopH, multLoop, multUpd, if_pos h1, if_pos hred, hg]
          exact ih _ _ _ b σ
      · simp only [multLoopH, multLoop, multUpd, if_pos h1, if_neg hred]
        exact ih _ _ _ b σ
    · cases hr : hread σ b with
      | nil =>
        by_cases hred : Int.fmod i rp = 0
        · cases hg : pygcd (num * i) den with
          | exc e =>
            simp only [multLoopH, multLoop, multUpd, if_neg h1, hr, if_pos hred, hg]
          | ok g =>
            simp only [multLoopH, multLoop, multUpd, if_neg h1, hr, if_pos hred, hg]
            rw [ih _ _ _ b σ, hr]
        · simp only [multLoopH, multLoop, multUpd, if_neg h1, hr, if_neg hred]
          rw [ih _ _ _ b σ, hr]
      | cons r rs =>
        have hr2 : hread (hwrite σ b ((r :: rs).erase r)) b = (r :: rs).erase r :=
          hread_hwrite_self _ _ _
        by_cases hred : Int.fmod i rp = 0
        · cases hg : pygcd (num * i) den with
          | exc e =>
            simp only [multLoopH, multLoop, multUpd, if_neg h1, hr, if_pos hred, hg]
          | ok g =>
            simp only [multLoopH, multLoop, multUpd, if_neg h1, hr, if_pos hred, hg]
            rw [ih _ _ _ b _, hr2]
        · simp only [multLoopH, multLoop, multUpd, if_neg h1, hr, if_neg hred]
          rw [ih _ _ _ b _, hr2]

theorem multinomialH_result (rp : Int) (σ : HState) (a : Nat) :
    (multinomialH rp σ a).1 = multinomialR rp (hread σ a) := by
  have hrb : hread (halloc σ (hread σ a)).1 (halloc σ (hread σ a)).2 = hread σ a := by
    unfold halloc hread
    simp
  simp only [multinomialH, multinomialR]
  rw [hrb]
  by_cases h1 : (hread σ a).length = 0
  · rw [if_pos h1, if_pos h1]
  · rw [if_neg h1, if_neg h1]
    by_cases h2 : (hread σ a).any (fun x => x < 0)
    · rw [if_pos h2, if_pos h2]
    · rw [if_neg h2, if_neg h2]
      by_cases h3 : (hread σ a).sum = 0
      · rw [if_pos h3, if_pos h3]
      · rw [if_neg h3, if_neg h3]
        have hr2 : hread (hwrite (halloc σ (hread σ a)).1 (halloc σ (hread σ a)).2
            ((hread σ a).erase (listMax (hread σ a)))) (halloc σ (hread σ a)).2
            = (hread σ a).erase (listMax (hread σ a)) := hread_hwrite_self _ _ _
        rw [hr2]
        cases herase : (hread σ a).erase (listMax (hread σ a)) with
        | nil => rfl
        | cons m0 rest0 =>
          rw [multLoopH_fst, hread_hwrite_self]
          cases hml : multLoop rp (intRange (listMax (hread σ a) + 1) (hread σ a).sum) 1 1 m0
              ((m0 :: rest0).erase m0) with
          | exc e => simp only [hml]
          | ok p => cases p with | mk x y => simp only [hml]

theorem surT_zero (m : Nat) : surT 0 m = if m = 0 then 1 else 0 := by
  unfold surT
  have h2 : ∑ i in Finset.range (m + 1),
        (-1 : Int)^i * ((m.choose i : Nat) : Int) * ((i : Nat) : Int)^0
      = ∑ i in Finset.range (m + 1), (-1 : Int)^i * ((m.choose i : Nat) : Int) :=
    Finset.sum_congr rfl (fun i _ => by rw [pow_zero, mul_one])
  rw [h2, Int.alternating_sum_range_choose]

/-- Reindexing: `Σ_{j=0}^{m} (-1)^j C(m, j+1) (j+1)^n = 0^n - surT n m`. -/
theorem surT_shift (n m : Nat) :
    ∑ j in Finset.range (m + 1),
      (-1 : Int)^j * ((m.choose (j + 1) : Nat) : Int) * (((j : Nat) : Int) + 1)^n
    = (0 : Int)^n - surT n m := by
  have h2 : ∑ j in Finset.range (m + 1),
        (-1 : Int)^j * ((m.choose (j + 1) : Nat) : Int) * (((j : Nat) : Int) + 1)^n
      = (∑ j in Finset.range m,
          (-1 : Int)^j * ((m.choose (j + 1) : Nat) : Int) * (((j : Nat) : Int) + 1)^n)
        + (-1 : Int)^m * ((m.choose (m + 1) : Nat) : Int) * (((m : Nat) : Int) + 1)^n :=
    Finset.sum_range_succ _ m
  have h1 : surT n m
      = (∑ j in Finset.range m,
          (-1 : Int)^(j + 1) * ((m.choose (j + 1) : Nat) : Int) * (((j + 1 : Nat)) : Int)^n)
        + (-1 : Int)^0 * ((m.choose 0 : Nat) : Int) * (((0 : Nat)) : Int)^n := by
    unfold surT
    exact Finset.sum_range_succ' _ m
  have h3 : ∑ j in Finset.range m,
        (-1 : Int)^(j + 1) * ((m.choose (j + 1) : Nat) : Int) * (((j + 1 : Nat)) : Int)^n
      = -(∑ j in Finset.range m,
          (-1 : Int)^j * ((m.choose (j + 1) : Nat) : Int) * (((j : Nat) : Int) + 1)^n) := by
    rw [← Finset.sum_neg_distrib]
    refine Finset.sum_congr rfl (fun j _ => ?_)
    push_cast
    ring
  have h4 : (-1 : Int)^0 * ((m.choose 0 : Nat) : Int) * (((0 : Nat)) : Int)^n
      = (0 : Int)^n := by
    rw [Nat.choose_zero_right]
    norm_num
  have h5 : ((m.choose (m + 1) : Nat) : Int) = 0 := by
    rw [Nat.choose_succ_self]
    norm_num
  rw [h2, h5]
  rw [h3, h4] at h1
  linarith

/-- The Pascal step: `surT n (m+1) = surT n m - surB n m`. -/
theorem surT_succ (n m : Nat) : surT n (m + 1) = surT n m - surB n m := by
  have h0 : surT n (m + 1)
      = (∑ j in Finset.range (m + 1),
          (-1 : Int)^(j + 1) * (((m + 1).choose (j + 1) : Nat) : Int) * (((j + 1 : Nat)) : Int)^n)
        + (-1 : Int)^0 * (((m + 1).choose 0 : Nat) : Int) * (((0 : Nat)) : Int)^n := by
    unfold surT
    exact Finset.sum_range_succ' _ (m + 1)
  have hsplit : ∑ j in Finset.range (m + 1),
        (-1 : Int)^(j + 1) * (((m + 1).choose (j + 1) : Nat) : Int) * (((j + 1 : Nat)) : Int)^n
      = -(surB n m)
        - (∑ j in Finset.range (m + 1),
            (-1 : Int)^j * ((m.choose (j + 1) : Nat) : Int) * (((j : Nat) : Int) + 1)^n) := by
    unfold surB
    rw [← Finset.sum_neg_distrib, ← Finset.sum_sub_distrib]
    refine Finset.sum_congr rfl (fun j _ => ?_)
    rw [Nat.choose_succ_succ]
    push_cast
    ring
  have h4 : (-1 : Int)^0 * (((m + 1).choose 0 : Nat) : Int) * (((0 : Nat)) : Int)^n
      = (0 : Int)^n := by
    rw [Nat.choose_zero_right]
    norm_num
  have hshift := surT_shift n m
  rw [h0, hsplit, h4, hshift]
  ring

/-- The absorption step:
`surT (n+1) (m+1) = -(m+1) * surB n m`. -/
theorem surT_pow_succ (n m : Nat) :
    surT (n + 1) (m + 1) = -(((m : Nat) : Int) + 1) * surB n m := by
  have h0 : surT (n + 1) (m + 1)
      = (∑ j in Finset.range (m + 1),
          (-1 : Int)^(j + 1) * (((m + 1).choose (j + 1) : Nat) : Int)
            * (((j + 1 : Nat)) : Int)^(n + 1))
        + (-1 : Int)^0 * (((m + 1).choose 0 : Nat) : Int) * (((0 : Nat)) : Int)^(n + 1) := by
    unfold surT
    exact Finset.sum_range_succ' _ (m + 1)
  have hsplit : ∑ j in Finset.range (m + 1),
        (-1 : Int)^(j + 1) * (((m + 1).choose (j + 1) : Nat) : Int)
          * (((j + 1 : Nat)) : Int)^(n + 1)
      = -(((m : Nat) : Int) + 1) * surB n m := by
    unfold surB
    rw [Finset.mul_sum]
    refine Finset.sum_congr rfl (fun j _ => ?_)
    have habs : (m + 1) * m.choose j = (m + 1).choose (j + 1) * (j + 1) :=
      Nat.succ_mul_choose_eq m j
    have habsI : (((m : Nat) : Int) + 1) * ((m.choose j : Nat) : Int)
        = (((m + 1).choose (j + 1) : Nat) : Int) * (((j : Nat) : Int) + 1) := by
      exact_mod_cast habs
    push_cast
    linear_combination ((-1 : Int)^j * (((j : Nat) : Int) + 1)^n) * habsI
  have h4 : (-1 : Int)^0 * (((m + 1).choose 0 : Nat) : Int) * (((0 : Nat)) : Int)^(n + 1)
      = 0 := by
    rw [Nat.choose_zero_right]
    norm_num
  rw [h0, hsplit, h4]
  ring

theorem surT_eq_zero_of_lt : ∀ n m : Nat, n < m → surT n m = 0 := by
  intro n
  induction n with
  | zero =>
    intro m hm
    rw [surT_zero, if_neg (by omega)]
  | succ t ih =>
    intro m hm
    obtain ⟨mm, rfl⟩ : ∃ mm, m = mm + 1 := ⟨m - 1, by omega⟩
    rw [surT_pow_succ t mm]
    have h1 := surT_succ t mm
    have h2 : surT t mm = 0 := ih mm (by omega)
    have h3 : surT t (mm + 1) = 0 := ih (mm + 1) (by omega)
    have h4 : surB t mm = 0 := by linarith
    rw [h4, mul_zero]

theorem surT_diag : ∀ n : Nat, surT n n = (-1 : Int)^n * ((n.factorial : Nat) : Int) := by
  intro n
  induction n with
  | zero =>
    unfold surT
    simp
  | succ t ih =>
    rw [surT_pow_succ t t]
    have h1 := surT_succ t t
    have h2 : surT t (t + 1) = 0 := surT_eq_zero_of_lt t (t + 1) (by omega)
    have h3 : surB t t = surT t t := by linarith
    rw [h3, ih]
    push_cast [Nat.factorial_succ]
    ring

theorem factorial_dvd_surT : ∀ n m : Nat, ((m.factorial : Nat) : Int) ∣ surT n m := by
  intro n
  induction n with
  | zero =>
    intro m
    rw [surT_zero]
    by_cases hm : m = 0
    · subst hm
      norm_num
    · rw [if_neg hm]
      exact dvd_zero _
  | succ t ih =>
    intro m
    cases m with
    | zero =>
      have h0 : surT (t + 1) 0 = 0 := by
        unfold surT
        rw [Finset.sum_range_one]
        norm_num
      rw [h0]
      exact dvd_zero _
    | succ mm =>
      rw [surT_pow_succ t mm]
      have hB : surB t mm = surT t mm - surT t (mm + 1) := by
        have := surT_succ t mm
        linarith
      rw [hB]
      obtain ⟨c1, hc1⟩ := ih mm
      obtain ⟨c2, hc2⟩ := ih (mm + 1)
      refine ⟨-c1 + (((mm : Nat) : Int) + 1) * c2, ?_⟩
      rw [hc1, hc2]
      push_cast [Nat.factorial_succ]
      ring

/-! ## Bridging the `stirling2` loop to `surT` -/
theorem sign_fmod_eq (m : Int) (hm : 0 ≤ m) (j : Nat) (hj : j ≤ m.toNat) :
    (if Int.fmod (m - ((j : Nat) : Int)) 2 = 0 then (1 : Int) else -1)
      = (-1 : Int)^m.toNat * (-1 : Int)^j := by
  have e1 : m - ((j : Nat) : Int) = ((m.toNat - j : Nat) : Int) := by omega
  have e2 : Int.fmod ((m.toNat - j : Nat) : Int) 2 = (((m.toNat - j) % 2 : Nat) : Int) := by
    rw [Int.fmod_eq_emod _ (by omega)]
    exact (Int.ofNat_emod (m.toNat - j) 2).symm
  rw [e1, e2, ← pow_add]
  by_cases hpar : (m.toNat - j) % 2 = 0
  · rw [if_pos (by exact_mod_cast hpar)]
    have heven : Even (m.toNat + j) := by
      have hsplit : m.toNat + j = (m.toNat - j) + 2 * j := by omega
      rw [hsplit]
      exact (Nat.even_iff.mpr hpar).add (even_two_mul j)
    exact (Even.neg_one_pow heven).symm
  · rw [if_neg (by
      intro hcast
      exact hpar (by exact_mod_cast hcast))]
    have hodd : Odd (m.toNat + j) := by
      have hsplit : m.toNat + j = (m.toNat - j) + 2 * j := by omega
      rw [hsplit]
      refine Odd.add_even (Nat.odd_iff.mpr (by omega)) (even_two_mul j)
    exact (Odd.neg_one_pow hodd).symm

theorem s2Loop_spec (rp m : Int) (hm : 0 ≤ m) (e : Nat) :
    ∀ (l : List Int) (acc : Int), (∀ i ∈ l, 0 ≤ i) →
    s2Loop (binomialR rp) m e l acc
      = .ok (acc + (l.map (fun i =>
          (if Int.fmod (m - i) 2 = 0 then (1 : Int) else -1)
            * ((m.toNat.choose i.toNat : Nat) : Int) * i ^ e)).sum) := by
  intro l
  induction l with
  | nil =>
    intro acc _
    simp [s2Loop]
  | cons i is ih =>
    intro acc hmem
    have hi : 0 ≤ i := hmem i (List.mem_cons_self i is)
    simp only [s2Loop, binomialR_eq_choose rp m i hm hi,
      ih _ (fun x hx => hmem x (List.mem_cons_of_mem i hx)),
      List.map_cons, List.sum_cons]
    congr 1
    ring

theorem pyfactorial_eq (m : Int) (hm : 0 ≤ m) :
    pyfactorial m = .ok ((m.toNat.factorial : Nat) : Int) := by
  unfold pyfactorial
  rw [if_neg (by omega)]

theorem stirling2R_eq (rp n m : Int) (hm : 0 ≤ m) (hn : m ≤ n) (hn0 : 0 ≤ n) :
    stirling2R rp n m
      = .ok (Int.fdiv ((-1 : Int)^m.toNat * surT n.toNat m.toNat)
          ((m.toNat.factorial : Nat) : Int)) := by
  have hsum : (0 : Int) + ((intRange 0 m).map (fun i =>
        (if Int.fmod (m - i) 2 = 0 then (1 : Int) else -1)
          * ((m.toNat.choose i.toNat : Nat) : Int) * i ^ n.toNat)).sum
      = (-1 : Int)^m.toNat * surT n.toNat m.toNat := by
    rw [zero_add, intRange_zero_sum m _ hm]
    unfold surT
    rw [Finset.mul_sum]
    refine Finset.sum_congr rfl (fun j hj => ?_)
    have hjm : j ≤ m.toNat := by
      simp only [Finset.mem_range] at hj
      omega
    rw [sign_fmod_eq m hm j hjm, Int.toNat_natCast]
    ring
  have hloop := s2Loop_spec rp m hm n.toNat (intRange 0 m) 0
    (fun i hi => (mem_intRange.mp hi).1)
  rw [hsum] at hloop
  unfold stirling2R
  rw [if_neg (by omega)]
  simp only [hloop, pyfactorial_eq m hm]

/-- C7: `stirling2(n, m)` returns 0 when `m < 0`, `n < 0` or `n < m`;
otherwise it returns the alternating sum
`Σ_{i=0}^{m} (-1)^(m-i) C(m,i) i^n` divided exactly by `m!` (the sum is a
multiple of `m!`), computed with exact integer exponentiation;
in particular `stirling2(n, n) = 1` for all `n ≥ 0` and
`stirling2(n, 0) = 0` for all `n > 0`. -/
theorem claim_C7 (n m : Int) :
    ((m < 0 ∨ n < 0 ∨ n < m) → stirling2 n m = .ok 0) ∧
    (0 ≤ m → m ≤ n → ∃ s : Int,
      stirling2 n m = .ok s ∧
      s * ((m.toNat.factorial : Nat) : Int)
        = ∑ i in Finset.range (m.toNat + 1),
            (-1 : Int)^(m.toNat - i) * ((m.toNat.choose i : Nat) : Int)
              * ((i : Nat) : Int)^n.toNat) ∧
    (0 ≤ n → stirling2 n n = .ok 1) ∧
    (0 < n → stirling2 n 0 = .ok 0) := by
  refine ⟨?_, ?_, ?_, ?_⟩
  · intro h
    show stirling2R RP n m = _
    unfold stirling2R
    rw [if_pos (by omega)]
  · intro hm hn
    have hn0 : 0 ≤ n := le_trans hm hn
    refine ⟨Int.fdiv ((-1 : Int)^m.toNat * surT n.toNat m.toNat)
        ((m.toNat.factorial : Nat) : Int),
      stirling2R_eq RP n m hm hn hn0, ?_⟩
    have hdvd : ((m.toNat.factorial : Nat) : Int) ∣ (-1 : Int)^m.toNat * surT n.toNat m.toNat :=
      Dvd.dvd.mul_left (factorial_dvd_surT n.toNat m.toNat) _
    have hfpos : (0 : Int) < ((m.toNat.factorial : Nat) : Int) := by
      exact_mod_cast Nat.factorial_pos m.toNat
    have hexact : Int.fdiv ((-1 : Int)^m.toNat * surT n.toNat m.toNat)
          ((m.toNat.factorial : Nat) : Int) * ((m.toNat.factorial : Nat) : Int)
        = (-1 : Int)^m.toNat * surT n.toNat m.toNat := by
      rw [Int.fdiv_eq_ediv _ (by omega)]
      exact Int.ediv_mul_cancel hdvd
    rw [hexact]
    unfold surT
    rw [Finset.mul_sum]
    refine Finset.sum_congr rfl (fun j hj => ?_)
    have hjm : j ≤ m.toNat := by
      simp only [Finset.mem_range] at hj
      omega
    have hsign : (-1 : Int)^(m.toNat - j) = (-1 : Int)^m.toNat * (-1 : Int)^j := by
      have h1 : (-1 : Int)^(m.toNat - j) * (-1 : Int)^j = (-1 : Int)^m.toNat := by
        rw [← pow_add, Nat.sub_add_cancel hjm]
      have h2 : (-1 : Int)^j * (-1 : Int)^j = 1 := by
        rw [← pow_add, Even.neg_one_pow ⟨j, rfl⟩]
      calc (-1 : Int)^(m.toNat - j)
          = (-1 : Int)^(m.toNat - j) * ((-1 : Int)^j * (-1 : Int)^j) := by rw [h2, mul_one]
        _ = ((-1 : Int)^(m.toNat - j) * (-1 : Int)^j) * (-1 : Int)^j := by ring
        _ = (-1 : Int)^m.toNat * (-1 : Int)^j := by rw [h1]
    rw [hsign]
    ring
  · intro hn
    show stirling2R RP n n = _
    rw [stirling2R_eq RP n n hn (le_refl n) hn, surT_diag]
    have h2 : (-1 : Int)^n.toNat * ((-1 : Int)^n.toNat * ((n.toNat.factorial : Nat) : Int))
        = ((n.toNat.factorial : Nat) : Int) := by
      have h3 : (-1 : Int)^n.toNat * (-1 : Int)^n.toNat = 1 := by
        rw [← pow_add, Even.neg_one_pow ⟨n.toNat, rfl⟩]
      calc (-1 : Int)^n.toNat * ((-1 : Int)^n.toNat * ((n.toNat.factorial : Nat) : Int))
          = ((-1 : Int)^n.toNat * (-1 : Int)^n.toNat) * ((n.toNat.factorial : Nat) : Int) := by
            ring
        _ = ((n.toNat.factorial : Nat) : Int) := by rw [h3, one_mul]
    rw [h2, Int.fdiv_self (by exact_mod_cast (Nat.factorial_pos n.toNat).ne')]
  · intro hn
    show stirling2R RP n 0 = _
    rw [stirling2R_eq RP n 0 (le_refl 0) (by omega) (by omega),
      show Int.toNat 0 = 0 from rfl]
    have h0 : surT n.toNat 0 = 0 := by
      unfold surT
      rw [Finset.sum_range_one]
      have hz : ((0 : Nat) : Int)^n.toNat = 0 := by
        rw [Nat.cast_zero]
        exact zero_pow (by omega)
      rw [hz]
      ring
    rw [h0, mul_zero]
    simp [Int.zero_fdiv]

/-- Witness for C7 at concrete inputs. -/
theorem claim_C7_witness :
    stirling2 (-1) 2 = .ok 0 ∧
    (∃ s : Int, stirling2 4 2 = .ok s ∧
      s * ((((2 : Int)).toNat.factorial : Nat) : Int)
        = ∑ i in Finset.range (((2 : Int)).toNat + 1),
            (-1 : Int)^(((2 : Int)).toNat - i) * ((((2 : Int)).toNat.choose i : Nat) : Int)
              * ((i : Nat) : Int)^((4 : Int)).toNat) ∧
    stirling2 3 3 = .ok 1 ∧ stirling2 5 0 = .ok 0 := by
  refine ⟨(claim_C7 (-1) 2).1 (by norm_num), ?_,
    (claim_C7 3 3).2.2.1 (by norm_num), (claim_C7 5 0).2.2.2 (by norm_num)⟩
  exact (claim_C7 4 2).2.1 (by norm_num) (by norm_num)

end PyComb
